import Mathlib

set_option maxRecDepth 100000
set_option maxHeartbeats 1000000

/-!
Verification development for the HackSheffield2024 learning-plan application.

The repository's two non-UI components are embedded shallowly here:

* the plan-to-graph converters `convert_to_graph_data` (frontend/app.py) and
  `convert_to_reactflow_data` (frontend/test.py), and
* the JSON-file history store `load_history` / `save_to_history`
  (identical in frontend/app.py and frontend/test.py).

Python strings are embedded as `List Char`.  The Python string methods the
source uses (`split`, `strip`, `lstrip`, `startswith`) are reproduced below;
`strip` and friends handle the ASCII whitespace characters Python treats as
whitespace (the rare non-ASCII Unicode whitespace code points are outside the
model).  Fallible code is embedded with `Option`: a `none` result models an
uncaught Python exception.

The standard-library `json` module (the only serialization code the store
uses; it is not part of the repository) is modeled by an executable
printer/parser pair faithful to `json.dump(..., indent=2)` with its default
`ensure_ascii=True` escaping, including surrogate-pair `\uXXXX` escapes.
JSON numbers are modeled as integers (the history data never contains
numbers, and the store treats parsed values opaquely); float syntax is
rejected by the model parser rather than misread.
-/

/-! ### Python string primitives over `List Char` -/

/-- The ASCII characters `str.strip()` removes. -/
def isPySpace (c : Char) : Bool :=
  c == ' ' || c == '\t' || c == '\n' || c == '\r' || c == '\x0b' || c == '\x0c'

/-- Python `s.strip()`: drop leading and trailing whitespace. -/
def pyStrip (s : List Char) : List Char :=
  ((s.dropWhile isPySpace).reverse.dropWhile isPySpace).reverse

/-- Worker for `pySplitNN`, carrying the current piece reversed. -/
def splitNNAux : List Char → List Char → List (List Char)
  | acc, '\n' :: '\n' :: rest => acc.reverse :: splitNNAux [] rest
  | acc, c :: rest => splitNNAux (c :: acc) rest
  | acc, [] => [acc.reverse]

/-- Python `s.split("\n\n")`: split on non-overlapping occurrences of the
    two-character separator, scanning left to right, keeping empty pieces. -/
def pySplitNN (s : List Char) : List (List Char) :=
  splitNNAux [] s

/-- Python `s.split("\n")`. -/
def splitLines : List Char → List (List Char)
  | [] => [[]]
  | c :: rest =>
    if c = '\n' then [] :: splitLines rest
    else
      match splitLines rest with
      | l :: ls => (c :: l) :: ls
      | [] => [[c]]

/-- Python `s.split(":", 1)` together with the `":" in s` guard the source
    always performs first: `some (before, after)` when a colon occurs,
    `none` when the string has no colon. -/
def splitOnceColon : List Char → Option (List Char × List Char)
  | [] => none
  | c :: rest =>
    if c = ':' then some ([], rest)
    else
      match splitOnceColon rest with
      | some (a, b) => some (c :: a, b)
      | none => none

/-- The decimal digit character for `n < 10`. -/
def digitChar (n : Nat) : Char := Char.ofNat (48 + n)

/-- Fueled worker for `natToChars`; the fuel is only there to make the
    division recursion structural, `natToChars` supplies enough. -/
def natToCharsAux : Nat → Nat → List Char
  | 0, _ => []
  | fuel + 1, n =>
    if n < 10 then [digitChar n]
    else natToCharsAux fuel (n / 10) ++ [digitChar (n % 10)]

/-- Python `str(n)` for a non-negative integer. -/
def natToChars (n : Nat) : List Char := natToCharsAux (n + 1) n

/-- Python `str(i)` for an arbitrary integer. -/
def intToChars (i : Int) : List Char :=
  if i < 0 then '-' :: natToChars i.natAbs else natToChars i.toNat

/-! ### The app.py converter `convert_to_graph_data`

The source builds node dictionaries
`{"id": str(counter), "data": {"title": t, "type": k, "content": t}}`.
`str` on the counter is injective, so the node carries the counter itself;
the `type` field holds the literal strings "main" / "section" / "detail"
the source stores. -/

/-- One node of the agraph output of `convert_to_graph_data`. -/
structure GNode where
  id : Nat
  title : List Char
  type : List Char
  content : List Char
deriving DecidableEq, Repr

/-- One edge of the agraph output: `{"source": s, "target": t}`. -/
structure GEdge where
  source : Nat
  target : Nat
deriving DecidableEq, Repr

/-- Python `p.startswith(("-", "•", "*"))`. -/
def bulletStart : List Char → Bool
  | [] => false
  | c :: _ => c == '-' || c == '•' || c == '*'

/-- The list comprehension
    `[p.strip() for p in content.split("\n") if p.strip() and p.strip().startswith(("-", "•", "*"))]`. -/
def bulletPointsOf (content : List Char) : List (List Char) :=
  ((splitLines content).map pyStrip).filter (fun p => !p.isEmpty && bulletStart p)

/-- Python `point.lstrip("-•* ").strip()` applied to an already stripped
    bullet line. -/
def pointText (p : List Char) : List Char :=
  pyStrip (p.dropWhile (fun c => c == '-' || c == '•' || c == '*' || c == ' '))

/-- The inner bullet loop of `convert_to_graph_data`: one "detail" node and
    one section→detail edge per bullet point, ids counting on from `cnt`. -/
def mkDetails (secId : Nat) : Nat → List (List Char) → List GNode × List GEdge
  | _, [] => ([], [])
  | cnt, p :: ps =>
    let txt := pointText p
    let r := mkDetails secId (cnt + 1) ps
    ({ id := cnt, title := txt, type := "detail".data, content := txt } :: r.1,
     { source := secId, target := cnt } :: r.2)

/-- The section loop of `convert_to_graph_data` over `sections[1:]`.
    A block without a colon is skipped entirely (the `if ":" in section`
    gate); a block with a colon becomes a "section" node joined to the main
    node (id 0), followed by its bullet "detail" nodes. -/
def processBlocks : Nat → List (List Char) → List GNode × List GEdge
  | _, [] => ([], [])
  | counter, blk :: rest =>
    match splitOnceColon blk with
    | none => processBlocks counter rest
    | some (tRaw, cRaw) =>
      let title := pyStrip tRaw
      let content := pyStrip cRaw
      let bullets := bulletPointsOf content
      let d := mkDetails counter (counter + 1) bullets
      let r := processBlocks (counter + 1 + bullets.length) rest
      ({ id := counter, title := title, type := "section".data, content := title } :: d.1 ++ r.1,
       { source := 0, target := counter } :: d.2 ++ r.2)

/-- The comprehension `[s.strip() for s in learning_plan.split("\n\n") if s.strip()]`. -/
def sectionsOf (learning_plan : List Char) : List (List Char) :=
  ((pySplitNN learning_plan).map pyStrip).filter (fun s => !s.isEmpty)

/-- frontend/app.py `convert_to_graph_data`.  The source reads `sections[0]`
    unguarded, so when the filtered section list is empty the call raises
    `IndexError`; that (and only that) failure is the `none` result. -/
def convert_to_graph_data (learning_plan : List Char) : Option (List GNode × List GEdge) :=
  match sectionsOf learning_plan with
  | [] => none
  | s0 :: rest =>
    let main_title := pyStrip s0
    let r := processBlocks 1 rest
    some ({ id := 0, title := main_title, type := "main".data, content := main_title } :: r.1,
          r.2)

/-! ### The test.py converter `convert_to_reactflow_data` -/

/-- One React-Flow node (`id`, `type`, `position`, `data.title`, `data.content`). -/
structure RFNode where
  id : List Char
  type : List Char
  x : Int
  y : Int
  title : List Char
  content : List Char
deriving DecidableEq, Repr

/-- One React-Flow edge; `type` is always "smoothstep" and `animated` is
    always `true` in the source (the constant `style` dict is omitted). -/
structure RFEdge where
  id : List Char
  source : List Char
  target : List Char
  type : List Char
  animated : Bool
deriving DecidableEq, Repr

/-- The `enumerate(sections[1:], 1)` loop of `convert_to_reactflow_data`:
    blank blocks are skipped (but still consume an index); every non-blank
    block yields a node AND an edge from "main", falling back to the title
    `"Topic {i}"` when the block has no colon. -/
def rfProcess : Nat → Int → List (List Char) → List RFNode × List RFEdge
  | _, _, [] => ([], [])
  | i, y, sec :: rest =>
    if (pyStrip sec).isEmpty then rfProcess (i + 1) y rest
    else
      let tc :=
        match splitOnceColon sec with
        | some (t, c) => (t, c)
        | none => ("Topic ".data ++ natToChars i, sec)
      let nodeId := "node-".data ++ natToChars i
      let node : RFNode :=
        { id := nodeId, type := "custom".data,
          x := 400 + ((i : Int) % 3 - 1) * 300, y := y,
          title := pyStrip tc.1, content := pyStrip tc.2 }
      let edge : RFEdge :=
        { id := "edge-".data ++ natToChars i, source := "main".data,
          target := nodeId, type := "smoothstep".data, animated := true }
      let y2 : Int := if i % 3 == 0 then y + 200 else y
      let r := rfProcess (i + 1) y2 rest
      (node :: r.1, edge :: r.2)

/-- frontend/test.py `convert_to_reactflow_data`.  Unlike the app.py
    converter it neither strips nor filters the split sections, and the
    main node always exists (`split` never returns an empty list, so the
    `sections[0]` access cannot fail). -/
def convert_to_reactflow_data (learning_plan : List Char) : List RFNode × List RFEdge :=
  let sections := pySplitNN learning_plan
  let mainNode : RFNode :=
    { id := "main".data, type := "custom".data, x := 400, y := 0,
      title := "Main Topic".data, content := sections.headI }
  let r := rfProcess 1 150 sections.tail
  (mainNode :: r.1, r.2)

/-! ### Companion definitions for claim C1, written from the claim's words

C1 is a refinement claim: on well-formed plan text the converter's output
must consist of exactly one "main" node, one "section" node per block
(titled with the text before the first colon, trimmed), one "detail" node
per bullet line, and exactly the main→section and section→detail edges.
The definitions below restate that expected shape independently, following
the claim (node ids are the monotone per-call counter the spec prescribes);
the C1 theorem then proves the converter equal to this shape on well-formed
input. -/

/-- The text before the first colon (the claim's section title, pre-trim). -/
def untilColon : List Char → List Char
  | [] => []
  | c :: rest => if c = ':' then [] else c :: untilColon rest

/-- The text after the first colon (the claim's section body). -/
def afterColon : List Char → List Char
  | [] => []
  | c :: rest => if c = ':' then rest else afterColon rest

/-- The bullet lines of a section body: the trimmed lines that begin with
    a bullet marker. -/
def bulletLines (body : List Char) : List (List Char) :=
  ((splitLines body).map pyStrip).filter bulletStart

/-- A bullet line with its leading bullet markers and spaces stripped
    (the claim's detail title). -/
def detailTitle (l : List Char) : List Char :=
  pyStrip (l.dropWhile (fun c => c == '-' || c == '•' || c == '*' || c == ' '))

/-- The detail nodes and section→detail edges the claim expects for one
    section's bullet lines. -/
def claimedDetails (secId : Nat) : Nat → List (List Char) → List GNode × List GEdge
  | _, [] => ([], [])
  | cnt, l :: ls =>
    let t := detailTitle l
    let r := claimedDetails secId (cnt + 1) ls
    ({ id := cnt, title := t, type := "detail".data, content := t } :: r.1,
     { source := secId, target := cnt } :: r.2)

/-- The section and detail nodes, and main→section and section→detail
    edges, the claim expects for the blocks after the first. -/
def claimedBlocks : Nat → List (List Char) → List GNode × List GEdge
  | _, [] => ([], [])
  | cnt, blk :: rest =>
    let title := pyStrip (untilColon blk)
    let body := pyStrip (afterColon blk)
    let bl := bulletLines body
    let d := claimedDetails cnt (cnt + 1) bl
    let r := claimedBlocks (cnt + 1 + bl.length) rest
    ({ id := cnt, title := title, type := "section".data, content := title } :: d.1 ++ r.1,
     { source := 0, target := cnt } :: d.2 ++ r.2)

/-- The full graph the claim describes: one "main" node for the first
    block, then the claimed section/detail structure. -/
def claimedGraphOf (learning_plan : List Char) : Option (List GNode × List GEdge) :=
  match sectionsOf learning_plan with
  | [] => none
  | s0 :: rest =>
    let r := claimedBlocks 1 rest
    some ({ id := 0, title := pyStrip s0, type := "main".data, content := pyStrip s0 } :: r.1,
          r.2)

/-- The claim's well-formedness condition on one non-first block: it has
    the form "Title: bullet-list", i.e. it contains a colon and every
    non-blank line of its body is a bullet line. -/
def wellFormedBlockB (blk : List Char) : Bool :=
  match splitOnceColon blk with
  | none => false
  | some (_, c) =>
    (splitLines (pyStrip c)).all (fun l => (pyStrip l).isEmpty || bulletStart (pyStrip l))

/-- The claim's well-formedness condition on a whole plan: a non-empty
    block list whose first block is the title and whose remaining blocks
    are all well-formed sections. -/
def wellFormedPlanB (learning_plan : List Char) : Bool :=
  match sectionsOf learning_plan with
  | [] => false
  | _ :: rest => rest.all wellFormedBlockB

/-! ### The JSON value model

`JValue` models the values Python's `json` module can hold for this store
(numbers restricted to integers, see the header).  Arrays and objects are
hand-rolled mutual inductives rather than `List`-nested ones so that every
definition below is structurally recursive and kernel-computable.  Object
fields model `dict` insertion order; the files `json.dump` writes never
contain duplicate keys. -/

mutual
inductive JValue : Type where
  | null : JValue
  | bool : Bool → JValue
  | num : Int → JValue
  | str : List Char → JValue
  | arr : JArr → JValue
  | obj : JObj → JValue
deriving DecidableEq, Repr
inductive JArr : Type where
  | nil : JArr
  | cons : JValue → JArr → JArr
deriving DecidableEq, Repr
inductive JObj : Type where
  | nil : JObj
  | cons : List Char → JValue → JObj → JObj
deriving DecidableEq, Repr
end

/-- The elements of a JSON array, as a `List`. -/
def JArr.toList : JArr → List JValue
  | .nil => []
  | .cons v vs => v :: JArr.toList vs

/-- Python `list.append`: add one element at the end. -/
def JArr.snoc : JArr → JValue → JArr
  | .nil, v => .cons v .nil
  | .cons w ws, v => .cons w (JArr.snoc ws v)

/-- Python `k in d` / `d[k]` on a dict: the value at the first (unique)
    occurrence of the key. -/
def JObj.lookup (k : List Char) : JObj → Option JValue
  | .nil => none
  | .cons k2 v fs => if k2 = k then some v else JObj.lookup k fs

/-- Python `d[k] = v`: replace the value at an existing key in place,
    otherwise add the key at the end (dict insertion order). -/
def JObj.setItem (k : List Char) (v : JValue) : JObj → JObj
  | .nil => .cons k v .nil
  | .cons k2 w fs => if k2 = k then .cons k2 v fs else .cons k2 w (JObj.setItem k v fs)

/-! ### The model of `json.dump(history, f, indent=2)` -/

/-- A run of `n` spaces (the indentation `json.dump` emits). -/
def spaces : Nat → List Char
  | 0 => []
  | n + 1 => ' ' :: spaces n

/-- Lowercase hexadecimal digit for `n < 16`, as CPython's `%04x`. -/
def hexDigitChar (n : Nat) : Char :=
  if n < 10 then Char.ofNat (48 + n) else Char.ofNat (87 + n)

/-- Four lowercase hex digits of `n < 0x10000`. -/
def hexQuad (n : Nat) : List Char :=
  [hexDigitChar (n / 4096 % 16), hexDigitChar (n / 256 % 16),
   hexDigitChar (n / 16 % 16), hexDigitChar (n % 16)]

/-- CPython's `ensure_ascii` escaping of one character: the named escapes,
    printable ASCII verbatim, `\uXXXX` for everything else, with a
    surrogate pair for code points above the basic plane. -/
def escapeChar (c : Char) : List Char :=
  if c = '"' then ['\\', '"']
  else if c = '\\' then ['\\', '\\']
  else if c = '\n' then ['\\', 'n']
  else if c = '\t' then ['\\', 't']
  else if c = '\r' then ['\\', 'r']
  else if c = '\x08' then ['\\', 'b']
  else if c = '\x0c' then ['\\', 'f']
  else if 0x20 ≤ c.toNat ∧ c.toNat ≤ 0x7e then [c]
  else if c.toNat ≤ 0xffff then '\\' :: 'u' :: hexQuad c.toNat
  else
    '\\' :: 'u' :: hexQuad (0xd800 + (c.toNat - 0x10000) / 0x400) ++
      '\\' :: 'u' :: hexQuad (0xdc00 + (c.toNat - 0x10000) % 0x400)

/-- Escape every character of a string body. -/
def escapeString : List Char → List Char
  | [] => []
  | c :: cs => escapeChar c ++ escapeString cs

/-- A JSON string literal: quotes around the escaped body. -/
def quoteString (s : List Char) : List Char := '"' :: escapeString s ++ ['"']

mutual
/-- `json.dump` with `indent=2` at indentation level `ind`: every array or
    object element goes on its own line, keys are followed by ": ", and the
    closing bracket returns to the enclosing indentation. -/
def printJV : Nat → JValue → List Char
  | _, .null => ['n', 'u', 'l', 'l']
  | _, .bool true => ['t', 'r', 'u', 'e']
  | _, .bool false => ['f', 'a', 'l', 's', 'e']
  | _, .num i => intToChars i
  | _, .str s => quoteString s
  | _, .arr .nil => ['[', ']']
  | ind, .arr (.cons v vs) =>
    '[' :: '\n' :: (spaces (ind + 2) ++ printJV (ind + 2) v ++ printArrTail (ind + 2) vs ++
      '\n' :: (spaces ind ++ [']']))
  | _, .obj .nil => ['{', '}']
  | ind, .obj (.cons k v fs) =>
    '{' :: '\n' :: (spaces (ind + 2) ++ (quoteString k ++ ':' :: ' ' :: printJV (ind + 2) v) ++
      printObjTail (ind + 2) fs ++ '\n' :: (spaces ind ++ ['}']))
/-- The remaining array elements, each preceded by ",\n" and indentation. -/
def printArrTail : Nat → JArr → List Char
  | _, .nil => []
  | ind, .cons v vs =>
    ',' :: '\n' :: (spaces ind ++ printJV ind v ++ printArrTail ind vs)
/-- The remaining object members, each preceded by ",\n" and indentation. -/
def printObjTail : Nat → JObj → List Char
  | _, .nil => []
  | ind, .cons k v fs =>
    ',' :: '\n' :: (spaces ind ++ (quoteString k ++ ':' :: ' ' :: printJV ind v) ++
      printObjTail ind fs)
end

/-- The full text `json.dump(v, f, indent=2)` writes. -/
def json_dumps (v : JValue) : List Char := printJV 0 v

/-! ### The model of `json.load` -/

/-- JSON whitespace (exactly what `json.load` skips between tokens). -/
def isJsonWs (c : Char) : Bool := c == ' ' || c == '\t' || c == '\n' || c == '\r'

/-- Skip leading JSON whitespace. -/
def skipJsonWs : List Char → List Char
  | [] => []
  | c :: rest => if isJsonWs c then skipJsonWs rest else c :: rest

/-- The value of a hexadecimal digit character, either case. -/
def hexVal (c : Char) : Option Nat :=
  if '0' ≤ c ∧ c ≤ '9' then some (c.toNat - 48)
  else if 'a' ≤ c ∧ c ≤ 'f' then some (c.toNat - 87)
  else if 'A' ≤ c ∧ c ≤ 'F' then some (c.toNat - 55)
  else none

/-- The scalar a decoded surrogate pair denotes. -/
def combineSurrogates (hi lo : Nat) : Char :=
  Char.ofNat (0x10000 + (hi - 0xd800) * 0x400 + (lo - 0xdc00))

/-- The single-character JSON escapes. -/
def escSimple (e : Char) : Option Char :=
  if e = '"' then some '"'
  else if e = '\\' then some '\\'
  else if e = '/' then some '/'
  else if e = 'b' then some '\x08'
  else if e = 'f' then some '\x0c'
  else if e = 'n' then some '\n'
  else if e = 'r' then some '\r'
  else if e = 't' then some '\t'
  else none

/-- Read four hex digits into their value (the `\uXXXX` payload). -/
def decodeU16 : List Char → Option (Nat × List Char)
  | h1 :: h2 :: h3 :: h4 :: rest =>
    (match hexVal h1, hexVal h2, hexVal h3, hexVal h4 with
     | some a, some b, some c, some d => some (((a * 16 + b) * 16 + c) * 16 + d, rest)
     | _, _, _, _ => none)
  | _ => none

/-- After a decoded high surrogate, read the `\uXXXX` low surrogate that
    must follow and combine the pair. -/
def decodeLowSurrogate (n : Nat) : List Char → Option (Char × List Char)
  | '\\' :: 'u' :: rest2 =>
    (match decodeU16 rest2 with
     | some (m, rest3) =>
       if 0xdc00 ≤ m ∧ m ≤ 0xdfff then some (combineSurrogates n m, rest3) else none
     | none => none)
  | _ => none

/-- Interpret one decoded `\uXXXX` payload: a high surrogate must be
    followed by a low surrogate, a lone low surrogate is rejected, anything
    else is the scalar itself.  Lean's `Char` is a Unicode scalar, so the
    lone-surrogate strings Python's decoder tolerates are outside the model;
    `json.dump` never writes them. -/
def decodeUEscapeCore (n : Nat) (rest : List Char) : Option (Char × List Char) :=
  if 0xd800 ≤ n ∧ n ≤ 0xdbff then decodeLowSurrogate n rest
  else if 0xdc00 ≤ n ∧ n ≤ 0xdfff then none
  else some (Char.ofNat n, rest)

/-- Decode one `\uXXXX` escape (after the `\u`). -/
def decodeUEscape (s : List Char) : Option (Char × List Char) :=
  match decodeU16 s with
  | none => none
  | some (n, rest) => decodeUEscapeCore n rest

/-- Decode a JSON string body up to (and past) the closing quote.
    Surrogate halves must pair up: Lean's `Char` is a Unicode scalar, so the
    lone-surrogate strings Python's decoder tolerates are outside the model;
    `json.dump` never writes them.  Raw control characters are rejected
    exactly as `json.load`'s default strict mode rejects them. -/
def parseStringBody : Nat → List Char → Option (List Char × List Char)
  | 0, _ => none
  | fuel + 1, s =>
    match s with
    | [] => none
    | c :: rest =>
      if c = '"' then some ([], rest)
      else if c = '\\' then
        match rest with
        | [] => none
        | e :: rest2 =>
          if e = 'u' then
            match decodeUEscape rest2 with
            | some (ch, rest3) =>
              (match parseStringBody fuel rest3 with
               | some (cs, r) => some (ch :: cs, r)
               | none => none)
            | none => none
          else
            match escSimple e with
            | some ec =>
              (match parseStringBody fuel rest2 with
               | some (cs, r) => some (ec :: cs, r)
               | none => none)
            | none => none
      else if c.toNat < 0x20 then none
      else
        match parseStringBody fuel rest with
        | some (cs, r) => some (c :: cs, r)
        | none => none

/-- An ASCII decimal digit. -/
def isDigitCh (c : Char) : Bool := '0' ≤ c && c ≤ '9'

/-- The number a digit run denotes. -/
def digitsToNat (ds : List Char) : Nat :=
  ds.foldl (fun a c => a * 10 + (c.toNat - 48)) 0

/-- Read a JSON natural-number token: a digit run without a redundant
    leading zero and not continued by a fraction or exponent (floats are
    outside the model and rejected rather than misread). -/
def parseNatToken (s : List Char) : Option (Nat × List Char) :=
  match s.takeWhile isDigitCh, s.dropWhile isDigitCh with
  | [], _ => none
  | c :: cs, r =>
    if c = '0' ∧ cs ≠ [] then none
    else
      match r with
      | x :: _ => if x = '.' ∨ x = 'e' ∨ x = 'E' then none else some (digitsToNat (c :: cs), r)
      | [] => some (digitsToNat (c :: cs), [])

/-- Read a JSON integer token with its optional sign. -/
def parseIntToken (s : List Char) : Option (Int × List Char) :=
  match s with
  | [] => none
  | c :: r =>
    if c = '-' then
      match parseNatToken r with
      | some (n, r2) => some (-(n : Int), r2)
      | none => none
    else
      match parseNatToken (c :: r) with
      | some (n, r2) => some ((n : Int), r2)
      | none => none

mutual
/-- The recursive-descent value parser of the `json.load` model.  The fuel
    argument only makes the mutual recursion structural; `json_loads` always
    supplies more fuel than a parse can consume. -/
def parseJV : Nat → List Char → Option (JValue × List Char)
  | 0, _ => none
  | fuel + 1, s =>
    match skipJsonWs s with
    | [] => none
    | c :: r =>
      if c = 'n' then
        match r with
        | 'u' :: 'l' :: 'l' :: r2 => some (.null, r2)
        | _ => none
      else if c = 't' then
        match r with
        | 'r' :: 'u' :: 'e' :: r2 => some (.bool true, r2)
        | _ => none
      else if c = 'f' then
        match r with
        | 'a' :: 'l' :: 's' :: 'e' :: r2 => some (.bool false, r2)
        | _ => none
      else if c = '"' then
        match parseStringBody fuel r with
        | some (cs, r2) => some (.str cs, r2)
        | none => none
      else if c = '[' then
        match skipJsonWs r with
        | [] => none
        | c2 :: r2 => if c2 = ']' then some (.arr .nil, r2) else parseJArr fuel r
      else if c = '{' then
        match skipJsonWs r with
        | [] => none
        | c2 :: r2 => if c2 = '}' then some (.obj .nil, r2) else parseJObj fuel r
      else
        match parseIntToken (c :: r) with
        | some (i, r2) => some (.num i, r2)
        | none => none
/-- Parse the comma-separated elements of a non-empty array, up to `]`. -/
def parseJArr : Nat → List Char → Option (JValue × List Char)
  | 0, _ => none
  | fuel + 1, s =>
    match parseJV fuel s with
    | some (v, r) =>
      (match skipJsonWs r with
       | ',' :: r2 =>
         (match parseJArr fuel r2 with
          | some (.arr vs, r3) => some (.arr (.cons v vs), r3)
          | _ => none)
       | ']' :: r2 => some (.arr (.cons v .nil), r2)
       | _ => none)
    | none => none
/-- Parse the members of a non-empty object, up to the closing brace. -/
def parseJObj : Nat → List Char → Option (JValue × List Char)
  | 0, _ => none
  | fuel + 1, s =>
    match skipJsonWs s with
    | '"' :: r =>
      (match parseStringBody fuel r with
       | some (k, r2) =>
         (match skipJsonWs r2 with
          | ':' :: r3 =>
            (match parseJV fuel r3 with
             | some (v, r4) =>
               (match skipJsonWs r4 with
                | ',' :: r5 =>
                  (match parseJObj fuel r5 with
                   | some (.obj fs, r6) => some (.obj (.cons k v fs), r6)
                   | _ => none)
                | c5 :: r5 => if c5 = '}' then some (.obj (.cons k v .nil), r5) else none
                | _ => none)
             | none => none)
          | _ => none)
       | none => none)
    | _ => none
end

/-- The `json.load` model: parse one document and require only whitespace
    after it, `none` being `JSONDecodeError`. -/
def json_loads (s : List Char) : Option JValue :=
  match parseJV (s.length + 1) s with
  | some (v, r) => if (skipJsonWs r).isEmpty then some v else none
  | none => none

/-! ### The history store

The backing file `data/prompt_history.json` is modeled as
`Option (List Char)`: `none` is an absent file (`FileNotFoundError` on
open), `some text` a file holding `text`.  `uuid.uuid4()` and
`datetime.now().isoformat()` are ambient inputs the store merely embeds, so
they are passed as parameters. -/

/-- The empty container `load_history` falls back to. -/
def emptyHistory : JValue := .obj (.cons "topics".data (.arr .nil) .nil)

/-- frontend/app.py `load_history` (test.py's copy is identical): read and
    parse the file, returning the empty container on `FileNotFoundError` or
    `JSONDecodeError`; any successfully parsed value is returned as-is. -/
def load_history : Option (List Char) → JValue
  | none => emptyHistory
  | some text =>
    match json_loads text with
    | some v => v
    | none => emptyHistory

/-- The `new_entry` dict `save_to_history` builds, in the source's key
    order: id, prompt, learning_plan, timestamp. -/
def mkHistoryEntry (newId prompt learning_plan timestamp : List Char) : JValue :=
  .obj (.cons "id".data (.str newId)
       (.cons "prompt".data (.str prompt)
       (.cons "learning_plan".data (.str learning_plan)
       (.cons "timestamp".data (.str timestamp) .nil))))

/-- The mutation step of `save_to_history`: ensure the "topics" key exists
    (setting it to `[]` first when missing, as the source does), then
    append the entry to it.  `none` models the `TypeError`/`AttributeError`
    raised when the loaded history is not a dict or its "topics" value is
    not a list; the source's broad `except` catches it and returns `None`
    without writing the file. -/
def appendTopicEntry (entry : JValue) : JValue → Option JValue
  | .obj fs =>
    let fs1 :=
      match JObj.lookup "topics".data fs with
      | none => JObj.setItem "topics".data (.arr .nil) fs
      | some _ => fs
    (match JObj.lookup "topics".data fs1 with
     | some (.arr xs) => some (.obj (JObj.setItem "topics".data (.arr (JArr.snoc xs entry)) fs1))
     | _ => none)
  | _ => none

/-- frontend/app.py `save_to_history` (test.py's copy is identical): load,
    build the entry from the given prompt and plan plus the generated id and
    timestamp, append, rewrite the whole file, and return the new entry;
    on failure the file is untouched and `None` is returned. -/
def save_to_history (newId timestamp prompt learning_plan : List Char)
    (file : Option (List Char)) : Option (List Char) × Option JValue :=
  let history := load_history file
  let new_entry := mkHistoryEntry newId prompt learning_plan timestamp
  match appendTopicEntry new_entry history with
  | some h2 => (some (json_dumps h2), some new_entry)
  | none => (file, none)

/-- The "topics" sequence of a history container (empty when the container
    does not have the documented shape). -/
def topicsOf (v : JValue) : List JValue :=
  match v with
  | .obj fs =>
    match JObj.lookup "topics".data fs with
    | some (.arr xs) => xs.toList
    | _ => []
  | _ => []

/-- The "topics"-independent fields of a container, for frame statements. -/
def objField (k : List Char) (v : JValue) : Option JValue :=
  match v with
  | .obj fs => JObj.lookup k fs
  | _ => none

/-- The consecutive ids `s, s+1, ..., s+n-1`, for the tree invariant. -/
def natRange : Nat → Nat → List Nat
  | _, 0 => []
  | s, n + 1 => s :: natRange (s + 1) n

/-- A list of JSON whitespace only (the printable slack between tokens). -/
def wsOnly (l : List Char) : Bool := l.all isJsonWs

/-- What may follow a printed value inside a `json.dump` document: nothing,
    a comma, or the newline that precedes a closing bracket. -/
def followOk : List Char → Prop
  | [] => True
  | c :: _ => c = ',' ∨ c = '\n'

/-- What may follow a printed number so that the digit run ends there. -/
def numBoundary : List Char → Prop
  | [] => True
  | x :: _ => isDigitCh x = false ∧ x ≠ '.' ∧ x ≠ 'e' ∧ x ≠ 'E'

/-! ## Theorems

First the list-level helper lemmas, then the per-component invariants, then
the claim theorems with their witnesses and counterexamples. -/

theorem natRange_append : ∀ (m s n : Nat),
    natRange s (m + n) = natRange s m ++ natRange (s + m) n := by
  intro m
  induction m with
  | zero => intro s n; simp [natRange]
  | succ k ih =>
    intro s n
    have h1 : k + 1 + n = (k + n) + 1 := by omega
    rw [h1]
    show s :: natRange (s + 1) (k + n) = (s :: natRange (s + 1) k) ++ natRange (s + (k + 1)) n
    rw [ih (s + 1) n]
    have h2 : s + 1 + k = s + (k + 1) := by omega
    rw [h2]
    simp

theorem mem_natRange : ∀ (n s x : Nat), x ∈ natRange s n ↔ s ≤ x ∧ x < s + n := by
  intro n
  induction n with
  | zero => intro s x; simp [natRange]
  | succ k ih =>
    intro s x
    simp only [natRange, List.mem_cons, ih (s + 1) x]
    omega

theorem mkDetails_spec (secId : Nat) : ∀ (ps : List (List Char)) (cnt : Nat),
    (mkDetails secId cnt ps).1.map GNode.id = natRange cnt ps.length ∧
    (mkDetails secId cnt ps).2.map GEdge.target = natRange cnt ps.length ∧
    (∀ e ∈ (mkDetails secId cnt ps).2, e.source = secId) ∧
    (mkDetails secId cnt ps).1.length = ps.length := by
  intro ps
  induction ps with
  | nil => intro cnt; simp [mkDetails, natRange]
  | cons p ps ih =>
    intro cnt
    obtain ⟨h1, h2, h3, h4⟩ := ih (cnt + 1)
    refine ⟨?_, ?_, ?_, ?_⟩
    · simp [mkDetails, natRange, h1]
    · simp [mkDetails, natRange, h2]
    · intro e he
      simp only [mkDetails, List.mem_cons] at he
      rcases he with rfl | he
      · rfl
      · exact h3 e he
    · simp [mkDetails, h4]

theorem processBlocks_spec : ∀ (blocks : List (List Char)) (counter : Nat), 1 ≤ counter →
    (processBlocks counter blocks).1.map GNode.id =
      natRange counter (processBlocks counter blocks).1.length ∧
    (processBlocks counter blocks).2.map GEdge.target =
      natRange counter (processBlocks counter blocks).1.length ∧
    ∀ e ∈ (processBlocks counter blocks).2, e.source < e.target := by
  intro blocks
  induction blocks with
  | nil => intro counter _; simp [processBlocks, natRange]
  | cons blk rest ih =>
    intro counter hc
    cases hsc : splitOnceColon blk with
    | none =>
      simpa only [processBlocks, hsc] using ih counter hc
    | some tc =>
      obtain ⟨tRaw, cRaw⟩ := tc
      have hd := mkDetails_spec counter (bulletPointsOf (pyStrip cRaw)) (counter + 1)
      obtain ⟨hd1, hd2, hd3, hd4⟩ := hd
      have hr := ih (counter + 1 + (bulletPointsOf (pyStrip cRaw)).length) (by omega)
      obtain ⟨hr1, hr2, hr3⟩ := hr
      set k := (bulletPointsOf (pyStrip cRaw)).length with hk
      set d := mkDetails counter (counter + 1) (bulletPointsOf (pyStrip cRaw)) with hdd
      set r := processBlocks (counter + 1 + k) rest with hrr
      have hlen : (processBlocks counter (blk :: rest)).1.length = 1 + (k + r.1.length) := by
        simp only [processBlocks, hsc, ← hdd, ← hrr]
        simp [hd4]
        omega
      refine ⟨?_, ?_, ?_⟩
      · rw [hlen]
        have : natRange counter (1 + (k + r.1.length)) =
            counter :: (natRange (counter + 1) k ++ natRange (counter + 1 + k) r.1.length) := by
          have e1 : 1 + (k + r.1.length) = Nat.succ (k + r.1.length) := by omega
          rw [e1]
          show counter :: natRange (counter + 1) (k + r.1.length) = _
          rw [natRange_append k (counter + 1) r.1.length]
        rw [this]
        simp only [processBlocks, hsc, ← hdd, ← hrr]
        simp [hd1, hr1, hd4]
      · rw [hlen]
        have : natRange counter (1 + (k + r.1.length)) =
            counter :: (natRange (counter + 1) k ++ natRange (counter + 1 + k) r.1.length) := by
          have e1 : 1 + (k + r.1.length) = Nat.succ (k + r.1.length) := by omega
          rw [e1]
          show counter :: natRange (counter + 1) (k + r.1.length) = _
          rw [natRange_append k (counter + 1) r.1.length]
        rw [this]
        simp only [processBlocks, hsc, ← hdd, ← hrr]
        simp [hd2, hr2, hd4]
      · intro e he
        simp only [processBlocks, hsc, ← hdd, ← hrr, List.mem_cons, List.mem_append] at he
        rcases he with (rfl | he) | he
        · simpa using hc
        · have hsrc := hd3 e he
          have htgt : e.target ∈ d.2.map GEdge.target := List.mem_map_of_mem GEdge.target he
          rw [hd2] at htgt
          have := (mem_natRange k (counter + 1) e.target).mp htgt
          omega
        · exact hr3 e he

/-- Claim C2: whenever `convert_to_graph_data` returns, its output is a
rooted tree.  Node ids are exactly the positions `0, 1, ...` in append
order, so an edge with `source < target < length` joins two nodes that were
both appended before it; the first node is the type-"main" root with id 0;
the edge targets are exactly the ids `1 .. length-1`, each once, so the root
has no incoming edge and every other node exactly one; and `source <
target` on every edge rules out cycles, while the bounds rule out orphan
edges. -/
theorem convert_output_rooted_tree (lp : List Char) (ns : List GNode) (es : List GEdge)
    (h : convert_to_graph_data lp = some (ns, es)) :
    ns.map GNode.id = natRange 0 ns.length ∧
    (∃ n0 tl, ns = n0 :: tl ∧ n0.id = 0 ∧ n0.type = "main".data) ∧
    es.map GEdge.target = natRange 1 (ns.length - 1) ∧
    ∀ e ∈ es, e.source < e.target ∧ e.target < ns.length := by
  unfold convert_to_graph_data at h
  cases hs : sectionsOf lp with
  | nil => rw [hs] at h; exact absurd h (by simp)
  | cons s0 rest =>
    rw [hs] at h
    simp only [Option.some_inj] at h
    obtain ⟨rfl, rfl⟩ : ns = _ ∧ es = _ :=
      ⟨congrArg Prod.fst h.symm, congrArg Prod.snd h.symm⟩
    obtain ⟨hp1, hp2, hp3⟩ := processBlocks_spec rest 1 (by omega)
    refine ⟨?_, ⟨_, _, rfl, rfl, rfl⟩, ?_, ?_⟩
    · simp only [List.map_cons, List.length_cons, hp1]
      rfl
    · simp only [List.length_cons, Nat.add_sub_cancel, hp2]
    · intro e he
      have hst := hp3 e he
      have htgt : e.target ∈ (processBlocks 1 rest).2.map GEdge.target :=
        List.mem_map_of_mem GEdge.target he
      rw [hp2] at htgt
      have := (mem_natRange (processBlocks 1 rest).1.length 1 e.target).mp htgt
      simp only [List.length_cons]
      omega

/-- Witness for C2 at a concrete plan. -/
theorem convert_output_rooted_tree_witness :
    ([{ id := 0, title := "ML Basics".data, type := "main".data, content := "ML Basics".data },
      { id := 1, title := "Core Ideas".data, type := "section".data, content := "Core Ideas".data },
      { id := 2, title := "Idea A".data, type := "detail".data, content := "Idea A".data },
      { id := 3, title := "Idea B".data, type := "detail".data, content := "Idea B".data }] :
        List GNode).map GNode.id = natRange 0 4 ∧
    (∃ n0 tl, ([{ id := 0, title := "ML Basics".data, type := "main".data, content := "ML Basics".data },
      { id := 1, title := "Core Ideas".data, type := "section".data, content := "Core Ideas".data },
      { id := 2, title := "Idea A".data, type := "detail".data, content := "Idea A".data },
      { id := 3, title := "Idea B".data, type := "detail".data, content := "Idea B".data }] :
        List GNode) = n0 :: tl ∧ n0.id = 0 ∧ n0.type = "main".data) ∧
    ([{ source := 0, target := 1 }, { source := 1, target := 2 }, { source := 1, target := 3 }] :
        List GEdge).map GEdge.target = natRange 1 3 ∧
    ∀ e ∈ ([{ source := 0, target := 1 }, { source := 1, target := 2 },
        { source := 1, target := 3 }] : List GEdge), e.source < e.target ∧ e.target < 4 := by
  have := convert_output_rooted_tree ("ML Basics\n\nCore Ideas: \n- Idea A\n- Idea B".data)
    [{ id := 0, title := "ML Basics".data, type := "main".data, content := "ML Basics".data },
     { id := 1, title := "Core Ideas".data, type := "section".data, content := "Core Ideas".data },
     { id := 2, title := "Idea A".data, type := "detail".data, content := "Idea A".data },
     { id := 3, title := "Idea B".data, type := "detail".data, content := "Idea B".data }]
    [{ source := 0, target := 1 }, { source := 1, target := 2 }, { source := 1, target := 3 }]
    (by decide)
  simpa using this

/-- Claim C5 counterexample: on the empty input string the section list is
empty and the source's unguarded `sections[0]` raises `IndexError` (the
model's `none`), so the converter is not total as claimed. -/
theorem convert_empty_input_counterexample :
    convert_to_graph_data "".data = none := by decide

/-- Claim C5 amended: the converter returns normally exactly on inputs whose
blank-line split yields at least one non-blank block; on the empty string
and whitespace-only strings `sections[0]` raises `IndexError` (modeled by
`none`). -/
theorem convert_raises_iff_blank (lp : List Char) :
    convert_to_graph_data lp = none ↔ sectionsOf lp = [] := by
  unfold convert_to_graph_data
  cases hs : sectionsOf lp <;> simp

/-- Claim C9: the spec's worked example, evaluated on the embedded
converter: four nodes (main "ML Basics", section "Core Ideas", details
"Idea A" and "Idea B") and the three edges main→section and
section→details. -/
theorem convert_example_ml_basics :
    convert_to_graph_data ("ML Basics\n\nCore Ideas: \n- Idea A\n- Idea B".data) =
      some
        ([{ id := 0, title := "ML Basics".data, type := "main".data, content := "ML Basics".data },
          { id := 1, title := "Core Ideas".data, type := "section".data, content := "Core Ideas".data },
          { id := 2, title := "Idea A".data, type := "detail".data, content := "Idea A".data },
          { id := 3, title := "Idea B".data, type := "detail".data, content := "Idea B".data }],
         [{ source := 0, target := 1 }, { source := 1, target := 2 },
          { source := 1, target := 3 }]) := by
  decide

/-- Claim C10: the converter is deterministic — equal input text gives
identical node and edge lists.  The embedding is a pure function because
the source routine reads nothing but its argument (its node counter is a
local variable, and it consults no clock, randomness, or global state), so
value-equality of inputs transports to the outputs. -/
theorem convert_deterministic (s1 s2 : List Char) (h : s1 = s2) :
    convert_to_graph_data s1 = convert_to_graph_data s2 := by rw [h]

/-- Witness for C10 at a concrete pair of equal inputs. -/
theorem convert_deterministic_witness :
    convert_to_graph_data "Plans\n\nA: \n- b".data =
      convert_to_graph_data "Plans\n\nA: \n- b".data :=
  convert_deterministic ("Plans\n\nA: \n- b".data) ("Plans\n\nA: \n- b".data) rfl

theorem untilColon_afterColon : ∀ (blk t body : List Char),
    splitOnceColon blk = some (t, body) → untilColon blk = t ∧ afterColon blk = body := by
  intro blk
  induction blk with
  | nil => intro t body h; cases h
  | cons x rest ih =>
    intro t body h
    by_cases hx : x = ':'
    · subst hx
      simp only [splitOnceColon, if_true, reduceIte, Option.some_inj, Prod.mk.injEq] at h
      obtain ⟨h1, h2⟩ := h
      subst h1
      subst h2
      simp [untilColon, afterColon]
    · simp only [splitOnceColon, if_neg hx] at h
      cases hrec : splitOnceColon rest with
      | none => rw [hrec] at h; cases h
      | some ab =>
        obtain ⟨a, b⟩ := ab
        rw [hrec] at h
        simp only [Option.some_inj] at h
        injection h with ht hb
        obtain ⟨ih1, ih2⟩ := ih a b hrec
        constructor
        · rw [untilColon, if_neg hx, ih1, ht]
        · rw [afterColon, if_neg hx, ih2, hb]

theorem bulletPointsOf_eq_bulletLines (body : List Char) :
    bulletPointsOf body = bulletLines body := by
  unfold bulletPointsOf bulletLines
  apply List.filter_congr
  intro l _
  cases l with
  | nil => rfl
  | cons c cs => simp [bulletStart]

theorem claimedDetails_eq_mkDetails (secId : Nat) : ∀ (ls : List (List Char)) (cnt : Nat),
    claimedDetails secId cnt ls = mkDetails secId cnt ls := by
  intro ls
  induction ls with
  | nil => intro cnt; rfl
  | cons l ls ih =>
    intro cnt
    simp [claimedDetails, mkDetails, detailTitle, pointText, ih (cnt + 1)]

theorem claimedBlocks_eq_processBlocks : ∀ (blocks : List (List Char)) (cnt : Nat),
    blocks.all wellFormedBlockB = true → processBlocks cnt blocks = claimedBlocks cnt blocks := by
  intro blocks
  induction blocks with
  | nil => intro cnt _; rfl
  | cons blk rest ih =>
    intro cnt hall
    simp only [List.all_cons, Bool.and_eq_true] at hall
    obtain ⟨hblk, hrest⟩ := hall
    unfold wellFormedBlockB at hblk
    cases hsc : splitOnceColon blk with
    | none => rw [hsc] at hblk; cases hblk
    | some tc =>
      obtain ⟨t, body⟩ := tc
      obtain ⟨hu, ha⟩ := untilColon_afterColon blk t body hsc
      simp only [processBlocks, claimedBlocks, hsc, hu, ha,
        bulletPointsOf_eq_bulletLines, claimedDetails_eq_mkDetails, ih _ hrest]

/-- Claim C1: on well-formed plan text (first block the title, every later
block of the form "Title: bullet-list"), the converter's output is exactly
the claimed shape: one "main" node titled with the first block, one
"section" node per later block titled with the text before its first colon
(trimmed), one "detail" node per bullet line (titled with the line minus
its bullet marker), an edge from the main node to every section node and
from each section node to each of its detail nodes, and nothing else.
`claimedGraphOf` spells that shape out from the claim's wording, and on
well-formed input the converter agrees with it exactly. -/
theorem convert_matches_spec_shape (lp : List Char) (h : wellFormedPlanB lp = true) :
    convert_to_graph_data lp = claimedGraphOf lp := by
  unfold wellFormedPlanB at h
  unfold convert_to_graph_data claimedGraphOf
  cases hs : sectionsOf lp with
  | nil =>
    rw [hs] at h
  | cons s0 rest =>
    rw [hs] at h
    have h2 : rest.all wellFormedBlockB = true := h
    show some ({ id := 0, title := pyStrip s0, type := "main".data, content := pyStrip s0 } ::
          (processBlocks 1 rest).1, (processBlocks 1 rest).2) =
        some ({ id := 0, title := pyStrip s0, type := "main".data, content := pyStrip s0 } ::
          (claimedBlocks 1 rest).1, (claimedBlocks 1 rest).2)
    rw [claimedBlocks_eq_processBlocks rest 1 h2]

/-- Witness for C1 at a concrete well-formed plan. -/
theorem convert_matches_spec_shape_witness :
    wellFormedPlanB ("ML Basics\n\nCore Ideas: \n- Idea A\n- Idea B".data) = true ∧
    convert_to_graph_data ("ML Basics\n\nCore Ideas: \n- Idea A\n- Idea B".data) =
      claimedGraphOf ("ML Basics\n\nCore Ideas: \n- Idea A\n- Idea B".data) :=
  ⟨by decide,
   convert_matches_spec_shape ("ML Basics\n\nCore Ideas: \n- Idea A\n- Idea B".data) (by decide)⟩

/-- Claim C6 counterexample: in test.py's `convert_to_reactflow_data`, a
non-blank block without a colon is NOT left disconnected — on the input
"Title\n\nNo colon" the colonless block produces node "node-1" together
with the edge main→node-1, contradicting the claim that every node created
from a colonless block has no edge connecting it to the rest of the graph. -/
theorem reactflow_colonless_counterexample :
    (convert_to_reactflow_data ("Title\n\nNo colon".data)).1.map RFNode.id =
      ["main".data, "node-1".data] ∧
    (convert_to_reactflow_data ("Title\n\nNo colon".data)).2 =
      [{ id := "edge-1".data, source := "main".data, target := "node-1".data,
         type := "smoothstep".data, animated := true }] := by
  decide

/-- Claim C6 amended: in app.py's converter a colonless non-first block
contributes no node and no edge (the block is skipped outright); in
test.py's variant a colonless but non-blank block yields a node (titled
"Topic i", holding the whole block as content) together with an edge from
the main node — it is connected, not dropped. -/
theorem colonless_block_behavior :
    (∀ (counter : Nat) (blk : List Char) (rest : List (List Char)),
        splitOnceColon blk = none →
        processBlocks counter (blk :: rest) = processBlocks counter rest) ∧
    (∀ (i : Nat) (y : Int) (sec : List Char) (rest : List (List Char)),
        (pyStrip sec).isEmpty = false →
        splitOnceColon sec = none →
        rfProcess i y (sec :: rest) =
          (({ id := "node-".data ++ natToChars i, type := "custom".data,
              x := 400 + ((i : Int) % 3 - 1) * 300, y := y,
              title := pyStrip ("Topic ".data ++ natToChars i), content := pyStrip sec } : RFNode) ::
             (rfProcess (i + 1) (if i % 3 == 0 then y + 200 else y) rest).1,
           ({ id := "edge-".data ++ natToChars i, source := "main".data,
              target := "node-".data ++ natToChars i, type := "smoothstep".data,
              animated := true } : RFEdge) ::
             (rfProcess (i + 1) (if i % 3 == 0 then y + 200 else y) rest).2)) := by
  constructor
  · intro counter blk rest h
    simp [processBlocks, h]
  · intro i y sec rest h1 h2
    simp [rfProcess, h1, h2]

/-- Witness for the amended C6 at concrete blocks. -/
theorem colonless_block_behavior_witness :
    processBlocks 1 ["no colon here".data, "A: \n- b".data] =
      processBlocks 1 ["A: \n- b".data] ∧
    rfProcess 1 150 ["no colon here".data] =
      (({ id := "node-1".data, type := "custom".data, x := 400, y := 150,
          title := "Topic 1".data, content := "no colon here".data } : RFNode) ::
         (rfProcess 2 350 []).1,
       ({ id := "edge-1".data, source := "main".data, target := "node-1".data,
          type := "smoothstep".data, animated := true } : RFEdge) ::
         (rfProcess 2 350 []).2) := by
  constructor
  · exact colonless_block_behavior.1 1 ("no colon here".data) ["A: \n- b".data] (by decide)
  · have := colonless_block_behavior.2 1 150 ("no colon here".data) [] (by decide) (by decide)
    simpa using this

/-! ### Character-level lemmas for the JSON codec -/

theorem char_ne_of_toNat_ne (c d : Char) (h : c.toNat ≠ d.toNat) : c ≠ d :=
  fun hc => h (congrArg Char.toNat hc)

theorem toNat_ofNat_valid (n : Nat) (h : n.isValidChar) : (Char.ofNat n).toNat = n := by
  unfold Char.ofNat
  rw [dif_pos h]
  unfold Char.ofNatAux Char.toNat
  have hlt : n < 2 ^ 32 := by
    rcases h with h | ⟨_, h2⟩ <;> omega
  simp [UInt32.toNat, BitVec.toNat_ofNatLt]

theorem char_valid_ranges (c : Char) :
    c.toNat < 0xd800 ∨ (0xdfff < c.toNat ∧ c.toNat < 0x110000) := c.valid

theorem hexVal_hexDigitChar (d : Nat) (h : d < 16) : hexVal (hexDigitChar d) = some d := by
  interval_cases d <;> decide

theorem spaces_length (n : Nat) : (spaces n).length = n := by
  induction n with
  | zero => rfl
  | succ k ih => simp [spaces, ih]

theorem wsOnly_spaces (n : Nat) : wsOnly (spaces n) = true := by
  induction n with
  | zero => rfl
  | succ k ih =>
    simp only [spaces, wsOnly, List.all_cons, Bool.and_eq_true]
    exact ⟨rfl, by simpa [wsOnly] using ih⟩

theorem skipJsonWs_ws_append : ∀ (pre x : List Char), wsOnly pre = true →
    skipJsonWs (pre ++ x) = skipJsonWs x := by
  intro pre
  induction pre with
  | nil => intro x _; rfl
  | cons c cs ih =>
    intro x h
    simp only [wsOnly, List.all_cons, Bool.and_eq_true] at h
    simp only [List.cons_append, skipJsonWs, h.1, if_true]
    exact ih x h.2

theorem skipJsonWs_cons_neg (c : Char) (x : List Char) (h : isJsonWs c = false) :
    skipJsonWs (c :: x) = c :: x := by
  simp [skipJsonWs, h]

theorem isDigitCh_bounds (c : Char) (h : isDigitCh c = true) :
    48 ≤ c.toNat ∧ c.toNat ≤ 57 := by
  simp only [isDigitCh, Bool.and_eq_true, decide_eq_true_eq] at h
  exact ⟨h.1, h.2⟩

/-- A decimal digit character is not whitespace, not a bracket, not a
    separator, and not the first character of a JSON keyword or string. -/
theorem digit_head_facts (c : Char) (h : isDigitCh c = true) :
    isJsonWs c = false ∧ c ≠ 'n' ∧ c ≠ 't' ∧ c ≠ 'f' ∧ c ≠ '"' ∧ c ≠ '[' ∧ c ≠ '{' ∧
      c ≠ ']' ∧ c ≠ '}' ∧ c ≠ ',' ∧ c ≠ '-' ∧ c ≠ ':' := by
  obtain ⟨h1, h2⟩ := isDigitCh_bounds c h
  have hne : ∀ d : Char, d.toNat < 48 ∨ 57 < d.toNat → c ≠ d := fun d hd =>
    char_ne_of_toNat_ne c d (by omega)
  refine ⟨?_, hne 'n' (by decide), hne 't' (by decide), hne 'f' (by decide),
    hne '"' (by decide), hne '[' (by decide), hne '{' (by decide), hne ']' (by decide),
    hne '}' (by decide), hne ',' (by decide), hne '-' (by decide), hne ':' (by decide)⟩
  have hsp := hne ' ' (by decide)
  have hta := hne '\t' (by decide)
  have hnl := hne '\n' (by decide)
  have hcr := hne '\r' (by decide)
  simp [isJsonWs, hsp, hta, hnl, hcr]

/-- The four hex digits `hexQuad` prints decode back to their value. -/
theorem hexQuad_decode (n : Nat) (h : n < 0x10000) :
    hexVal (hexDigitChar (n / 4096 % 16)) = some (n / 4096 % 16) ∧
    hexVal (hexDigitChar (n / 256 % 16)) = some (n / 256 % 16) ∧
    hexVal (hexDigitChar (n / 16 % 16)) = some (n / 16 % 16) ∧
    hexVal (hexDigitChar (n % 16)) = some (n % 16) ∧
    ((n / 4096 % 16 * 16 + n / 256 % 16) * 16 + n / 16 % 16) * 16 + n % 16 = n := by
  refine ⟨hexVal_hexDigitChar _ (Nat.mod_lt _ (by omega)),
          hexVal_hexDigitChar _ (Nat.mod_lt _ (by omega)),
          hexVal_hexDigitChar _ (Nat.mod_lt _ (by omega)),
          hexVal_hexDigitChar _ (Nat.mod_lt _ (by omega)), ?_⟩
  omega

theorem decodeU16_hexQuad (n : Nat) (h : n < 0x10000) (t : List Char) :
    decodeU16 (hexQuad n ++ t) = some (n, t) := by
  obtain ⟨h1, h2, h3, h4, h5⟩ := hexQuad_decode n h
  simp only [hexQuad, List.cons_append, List.nil_append, decodeU16, h1, h2, h3, h4]
  rw [h5]

theorem decodeUEscape_step (s : List Char) (n : Nat) (rest : List Char)
    (h : decodeU16 s = some (n, rest)) :
    decodeUEscape s = decodeUEscapeCore n rest := by
  unfold decodeUEscape
  rw [h]

theorem decodeUEscape_bmp (n : Nat) (hlt : n < 0x10000)
    (hno1 : ¬(0xd800 ≤ n ∧ n ≤ 0xdbff)) (hno2 : ¬(0xdc00 ≤ n ∧ n ≤ 0xdfff)) (t : List Char) :
    decodeUEscape (hexQuad n ++ t) = some (Char.ofNat n, t) := by
  rw [decodeUEscape_step (hexQuad n ++ t) n t (decodeU16_hexQuad n hlt t)]
  unfold decodeUEscapeCore
  rw [if_neg hno1, if_neg hno2]

theorem decodeUEscape_pair (n m : Nat) (hn : 0xd800 ≤ n ∧ n ≤ 0xdbff)
    (hm : 0xdc00 ≤ m ∧ m ≤ 0xdfff) (t : List Char) :
    decodeUEscape (hexQuad n ++ ('\\' :: 'u' :: (hexQuad m ++ t))) =
      some (combineSurrogates n m, t) := by
  rw [decodeUEscape_step (hexQuad n ++ ('\\' :: 'u' :: (hexQuad m ++ t))) n
    ('\\' :: 'u' :: (hexQuad m ++ t)) (decodeU16_hexQuad n (by omega) _)]
  unfold decodeUEscapeCore
  rw [if_pos hn]
  simp [decodeLowSurrogate, decodeU16_hexQuad m (by omega) t, hm.1, hm.2]

/-- Decoding inverts `escapeChar`: prefixing a decodable tail with one
    escaped character decodes to that character consed on. -/
theorem parseStringBody_escape (c : Char) (f : Nat) (t cs r : List Char)
    (h : parseStringBody f t = some (cs, r)) :
    parseStringBody (f + 1) (escapeChar c ++ t) = some (c :: cs, r) := by
  by_cases e1 : c = '"'
  · subst e1
    rw [show escapeChar '"' ++ t = '\\' :: '"' :: t from rfl, parseStringBody]
    simp [escSimple, h]
  by_cases e2 : c = '\\'
  · subst e2
    rw [show escapeChar '\\' ++ t = '\\' :: '\\' :: t from rfl, parseStringBody]
    simp [escSimple, h]
  by_cases e3 : c = '\n'
  · subst e3
    rw [show escapeChar '\n' ++ t = '\\' :: 'n' :: t from rfl, parseStringBody]
    simp [escSimple, h]
  by_cases e4 : c = '\t'
  · subst e4
    rw [show escapeChar '\t' ++ t = '\\' :: 't' :: t from rfl, parseStringBody]
    simp [escSimple, h]
  by_cases e5 : c = '\r'
  · subst e5
    rw [show escapeChar '\r' ++ t = '\\' :: 'r' :: t from rfl, parseStringBody]
    simp [escSimple, h]
  by_cases e6 : c = '\x08'
  · subst e6
    rw [show escapeChar '\x08' ++ t = '\\' :: 'b' :: t from rfl, parseStringBody]
    simp [escSimple, h]
  by_cases e7 : c = '\x0c'
  · subst e7
    rw [show escapeChar '\x0c' ++ t = '\\' :: 'f' :: t from rfl, parseStringBody]
    simp [escSimple, h]
  by_cases e8 : 0x20 ≤ c.toNat ∧ c.toNat ≤ 0x7e
  · have hesc : escapeChar c = [c] := by
      unfold escapeChar
      rw [if_neg e1, if_neg e2, if_neg e3, if_neg e4, if_neg e5, if_neg e6, if_neg e7, if_pos e8]
    have hlt : ¬ c.toNat < 0x20 := by omega
    rw [hesc, List.cons_append, List.nil_append]
    simp [parseStringBody, e1, e2, hlt, h]
  by_cases e9 : c.toNat ≤ 0xffff
  · have hesc : escapeChar c = '\\' :: 'u' :: hexQuad c.toNat := by
      unfold escapeChar
      rw [if_neg e1, if_neg e2, if_neg e3, if_neg e4, if_neg e5, if_neg e6, if_neg e7,
        if_neg e8, if_pos e9]
    have hno1 : ¬(0xd800 ≤ c.toNat ∧ c.toNat ≤ 0xdbff) := by
      rcases char_valid_ranges c with hv | hv <;> omega
    have hno2 : ¬(0xdc00 ≤ c.toNat ∧ c.toNat ≤ 0xdfff) := by
      rcases char_valid_ranges c with hv | hv <;> omega
    have hbmp := decodeUEscape_bmp c.toNat (by omega) hno1 hno2 t
    rw [hesc]
    simp only [List.cons_append, List.append_assoc]
    rw [parseStringBody]
    simp [hbmp, h, Char.ofNat_toNat]
  · have hhi : c.toNat < 0x110000 := by
      rcases char_valid_ranges c with hv | hv <;> omega
    have hesc : escapeChar c =
        ('\\' :: 'u' :: hexQuad (0xd800 + (c.toNat - 0x10000) / 0x400)) ++
          '\\' :: 'u' :: hexQuad (0xdc00 + (c.toNat - 0x10000) % 0x400) := by
      unfold escapeChar
      rw [if_neg e1, if_neg e2, if_neg e3, if_neg e4, if_neg e5, if_neg e6, if_neg e7,
        if_neg e8, if_neg e9]
    have hcomb : combineSurrogates (0xd800 + (c.toNat - 0x10000) / 0x400)
        (0xdc00 + (c.toNat - 0x10000) % 0x400) = c := by
      unfold combineSurrogates
      have harg : 0x10000 + (0xd800 + (c.toNat - 0x10000) / 0x400 - 0xd800) * 0x400 +
          (0xdc00 + (c.toNat - 0x10000) % 0x400 - 0xdc00) = c.toNat := by omega
      rw [harg, Char.ofNat_toNat]
    have hpair := decodeUEscape_pair (0xd800 + (c.toNat - 0x10000) / 0x400)
      (0xdc00 + (c.toNat - 0x10000) % 0x400) (by omega) (by omega) t
    rw [hesc]
    simp only [List.cons_append, List.append_assoc]
    rw [parseStringBody]
    simp [hpair, h, hcomb]

/-- Decoding inverts `escapeString`: the printed body of a JSON string
    literal decodes to the original characters, stopping at the closing
    quote.  The fuel only needs to exceed the number of decoded characters. -/
theorem parseStringBody_quote (s : List Char) : ∀ (f : Nat) (rest : List Char), s.length < f →
    parseStringBody f (escapeString s ++ '"' :: rest) = some (s, rest) := by
  induction s with
  | nil =>
    intro f rest hf
    obtain ⟨f2, rfl⟩ : ∃ f2, f = f2 + 1 := ⟨f - 1, by omega⟩
    rw [show escapeString [] ++ '"' :: rest = '"' :: rest from rfl]
    simp [parseStringBody]
  | cons c cs ih =>
    intro f rest hf
    obtain ⟨f2, rfl⟩ : ∃ f2, f = f2 + 1 := ⟨f - 1, by omega⟩
    have step := parseStringBody_escape c f2 (escapeString cs ++ '"' :: rest) cs rest
      (ih f2 rest (by simpa using hf))
    simpa [escapeString, List.append_assoc] using step

/-! ### Number lemmas for the JSON codec -/

theorem digitChar_digit (m : Nat) (h : m < 10) : isDigitCh (digitChar m) = true := by
  interval_cases m <;> decide

theorem digitChar_toNat (m : Nat) (h : m < 10) : (digitChar m).toNat = 48 + m := by
  interval_cases m <;> decide

theorem digitChar_zero (m : Nat) (h : m < 10) : digitChar m = '0' → m = 0 := by
  interval_cases m <;> decide

theorem digitsToNat_snoc (ds : List Char) (d : Char) :
    digitsToNat (ds ++ [d]) = digitsToNat ds * 10 + (d.toNat - 48) := by
  unfold digitsToNat
  rw [List.foldl_append]
  rfl

/-- The decimal printer emits a non-empty all-digit run that folds back to
    its input and starts with '0' only for zero itself. -/
theorem natToCharsAux_spec : ∀ (fuel n : Nat), n < fuel →
    (∃ c cs, natToCharsAux fuel n = c :: cs ∧ isDigitCh c = true ∧ (c = '0' → n = 0)) ∧
    (∀ c ∈ natToCharsAux fuel n, isDigitCh c = true) ∧
    digitsToNat (natToCharsAux fuel n) = n := by
  intro fuel
  induction fuel with
  | zero => intro n h; omega
  | succ f ih =>
    intro n h
    by_cases hn : n < 10
    · refine ⟨⟨digitChar n, [], ?_, digitChar_digit n hn, digitChar_zero n hn⟩, ?_, ?_⟩
      · simp [natToCharsAux, hn]
      · intro c hc
        simp only [natToCharsAux, if_pos hn, List.mem_singleton] at hc
        subst hc
        exact digitChar_digit n hn
      · simp only [natToCharsAux, if_pos hn]
        show digitsToNat [digitChar n] = n
        unfold digitsToNat
        simp [digitChar_toNat n hn]
    · have hd : n / 10 < f := by
        have := Nat.div_lt_self (by omega : 0 < n) (by omega : 1 < 10)
        omega
      obtain ⟨⟨c, cs, hcons, hcd, hcz⟩, hall, hval⟩ := ih (n / 10) hd
      have hmod : n % 10 < 10 := Nat.mod_lt _ (by omega)
      refine ⟨⟨c, cs ++ [digitChar (n % 10)], ?_, hcd, ?_⟩, ?_, ?_⟩
      · simp [natToCharsAux, hn, hcons]
      · intro hc0
        have := hcz hc0
        omega
      · intro d hdm
        simp only [natToCharsAux, if_neg hn, List.mem_append, List.mem_singleton] at hdm
        rcases hdm with hdm | rfl
        · exact hall d hdm
        · exact digitChar_digit _ hmod
      · simp only [natToCharsAux, if_neg hn]
        rw [digitsToNat_snoc, hval, digitChar_toNat _ hmod]
        omega

theorem takeWhile_all_append (p : Char → Bool) : ∀ (ds rest : List Char),
    (∀ c ∈ ds, p c = true) →
    (rest = [] ∨ ∃ x xs, rest = x :: xs ∧ p x = false) →
    (ds ++ rest).takeWhile p = ds ∧ (ds ++ rest).dropWhile p = rest := by
  intro ds
  induction ds with
  | nil =>
    intro rest _ hr
    rcases hr with rfl | ⟨x, xs, rfl, hx⟩
    · simp
    · simp only [List.nil_append, List.takeWhile, List.dropWhile]
      rw [hx]
      simp
  | cons c cs ih =>
    intro rest hall hr
    have hc : p c = true := hall c (by simp)
    obtain ⟨h1, h2⟩ := ih rest (fun d hd => hall d (by simp [hd])) hr
    constructor
    · simp only [List.cons_append, List.takeWhile, hc, List.append_eq, h1]
    · simp only [List.cons_append, List.dropWhile, hc, List.append_eq, h2]

/-- Reading back a printed natural number. -/
theorem parseNatToken_natToChars (n : Nat) (rest : List Char) (hr : numBoundary rest) :
    parseNatToken (natToChars n ++ rest) = some (n, rest) := by
  obtain ⟨⟨c, cs, hcons0, hcd, hcz⟩, hall0, hval0⟩ := natToCharsAux_spec (n + 1) n (by omega)
  have hcons : natToChars n = c :: cs := hcons0
  have hval : digitsToNat (natToChars n) = n := hval0
  have hall : ∀ d ∈ natToChars n, isDigitCh d = true := hall0
  have hlz : ¬(c = '0' ∧ cs ≠ []) := by
    rintro ⟨rfl, hcs⟩
    have hn0 := hcz rfl
    subst hn0
    have hone : natToChars 0 = ['0'] := by decide
    rw [hcons] at hone
    injection hone with _ h2
    exact hcs h2
  have hrest : rest = [] ∨ ∃ x xs, rest = x :: xs ∧ isDigitCh x = false := by
    cases rest with
    | nil => exact Or.inl rfl
    | cons x xs => exact Or.inr ⟨x, xs, rfl, hr.1⟩
  obtain ⟨htake, hdrop⟩ := takeWhile_all_append isDigitCh (natToChars n) rest hall hrest
  unfold parseNatToken
  rw [htake, hdrop, hcons]
  show (if c = '0' ∧ cs ≠ [] then none
    else
      match rest with
      | x :: _ => if x = '.' ∨ x = 'e' ∨ x = 'E' then none
          else some (digitsToNat (c :: cs), rest)
      | [] => some (digitsToNat (c :: cs), [])) = some (n, rest)
  rw [if_neg hlz]
  cases rest with
  | nil =>
    show some (digitsToNat (c :: cs), ([] : List Char)) = some (n, [])
    rw [← hcons, hval]
  | cons x xs =>
    obtain ⟨hx1, hx2, hx3, hx4⟩ := hr
    show (if x = '.' ∨ x = 'e' ∨ x = 'E' then none
      else some (digitsToNat (c :: cs), x :: xs)) = some (n, x :: xs)
    rw [if_neg (by simp [hx2, hx3, hx4])]
    rw [← hcons, hval]

/-- Reading back a printed integer. -/
theorem parseIntToken_intToChars (i : Int) (rest : List Char) (hr : numBoundary rest) :
    parseIntToken (intToChars i ++ rest) = some (i, rest) := by
  by_cases hneg : i < 0
  · have hstr : intToChars i = '-' :: natToChars i.natAbs := by
      unfold intToChars
      rw [if_pos hneg]
    rw [hstr, List.cons_append]
    unfold parseIntToken
    show (if '-' = '-' then
        match parseNatToken (natToChars i.natAbs ++ rest) with
        | some (n, r2) => some (-(n : Int), r2)
        | none => none
      else
        match parseNatToken ('-' :: (natToChars i.natAbs ++ rest)) with
        | some (n, r2) => some ((n : Int), r2)
        | none => none) = some (i, rest)
    rw [if_pos rfl, parseNatToken_natToChars i.natAbs rest hr]
    show some (-((i.natAbs : Nat) : Int), rest) = some (i, rest)
    rw [show -((i.natAbs : Nat) : Int) = i by omega]
  · have hstr : intToChars i = natToChars i.toNat := by
      unfold intToChars
      rw [if_neg hneg]
    obtain ⟨⟨c, cs, hcons0, hcd, _⟩, _, _⟩ := natToCharsAux_spec (i.toNat + 1) i.toNat (by omega)
    have hcons : natToChars i.toNat = c :: cs := hcons0
    have hfacts := digit_head_facts c hcd
    have hminus : ¬ c = '-' := hfacts.2.2.2.2.2.2.2.2.2.2.1
    rw [hstr, hcons, List.cons_append]
    unfold parseIntToken
    show (if c = '-' then
        match parseNatToken (cs ++ rest) with
        | some (n, r2) => some (-(n : Int), r2)
        | none => none
      else
        match parseNatToken (c :: (cs ++ rest)) with
        | some (n, r2) => some ((n : Int), r2)
        | none => none) = some (i, rest)
    rw [if_neg hminus]
    rw [show c :: (cs ++ rest) = (c :: cs) ++ rest from rfl, ← hcons]
    rw [parseNatToken_natToChars i.toNat rest hr]
    show some (((i.toNat : Nat) : Int), rest) = some (i, rest)
    rw [show ((i.toNat : Nat) : Int) = i by omega]

/-! ### Head-character and whitespace lemmas for the value parser -/

theorem followOk_comma (t : List Char) : followOk (',' :: t) := Or.inl rfl

theorem followOk_newline (t : List Char) : followOk ('\n' :: t) := Or.inr rfl

theorem followOk_numBoundary (rest : List Char) (h : followOk rest) : numBoundary rest := by
  cases rest with
  | nil => trivial
  | cons c cs =>
    rcases h with rfl | rfl
    · exact ⟨by decide, by decide, by decide, by decide⟩
    · exact ⟨by decide, by decide, by decide, by decide⟩

theorem skipJsonWs_newline (x : List Char) : skipJsonWs ('\n' :: x) = skipJsonWs x := by
  simp [skipJsonWs, isJsonWs]

theorem wsOnly_newline_spaces (n : Nat) : wsOnly ('\n' :: spaces n) = true := by
  simp only [wsOnly, List.all_cons, Bool.and_eq_true]
  exact ⟨by decide, by simpa [wsOnly] using wsOnly_spaces n⟩

theorem escapeChar_length_pos (c : Char) : 1 ≤ (escapeChar c).length := by
  unfold escapeChar
  split_ifs <;> simp [hexQuad]

theorem escapeString_length : ∀ (s : List Char), s.length ≤ (escapeString s).length := by
  intro s
  induction s with
  | nil => simp [escapeString]
  | cons c cs ih =>
    have := escapeChar_length_pos c
    simp only [escapeString, List.length_append, List.length_cons]
    omega

theorem intToChars_head (i : Int) :
    ∃ c cs, intToChars i = c :: cs ∧ isJsonWs c = false ∧ c ≠ 'n' ∧ c ≠ 't' ∧ c ≠ 'f' ∧
      c ≠ '"' ∧ c ≠ '[' ∧ c ≠ '{' ∧ c ≠ ']' ∧ c ≠ '}' := by
  by_cases hneg : i < 0
  · refine ⟨'-', natToChars i.natAbs, ?_, by decide, by decide, by decide, by decide,
      by decide, by decide, by decide, by decide, by decide⟩
    unfold intToChars
    rw [if_pos hneg]
  · obtain ⟨⟨c, cs, hcons, hcd, _⟩, _, _⟩ := natToCharsAux_spec (i.toNat + 1) i.toNat (by omega)
    obtain ⟨hw, h1, h2, h3, h4, h5, h6, h7, h8, _, _, _⟩ := digit_head_facts c hcd
    refine ⟨c, cs, ?_, hw, h1, h2, h3, h4, h5, h6, h7, h8⟩
    unfold intToChars
    rw [if_neg hneg]
    exact hcons

theorem printJV_head (ind : Nat) (v : JValue) :
    ∃ c t, printJV ind v = c :: t ∧ isJsonWs c = false ∧ c ≠ ']' ∧ c ≠ '}' := by
  cases v with
  | null => exact ⟨'n', _, rfl, by decide, by decide, by decide⟩
  | bool b =>
    cases b with
    | false => exact ⟨'f', _, rfl, by decide, by decide, by decide⟩
    | true => exact ⟨'t', _, rfl, by decide, by decide, by decide⟩
  | num i =>
    obtain ⟨c, cs, hcons, hw, _, _, _, _, _, _, h7, h8⟩ := intToChars_head i
    exact ⟨c, cs, hcons, hw, h7, h8⟩
  | str s => exact ⟨'"', _, rfl, by decide, by decide, by decide⟩
  | arr a =>
    cases a with
    | nil => exact ⟨'[', _, rfl, by decide, by decide, by decide⟩
    | cons v vs => exact ⟨'[', _, rfl, by decide, by decide, by decide⟩
  | obj o =>
    cases o with
    | nil => exact ⟨'{', _, rfl, by decide, by decide, by decide⟩
    | cons k v fs => exact ⟨'{', _, rfl, by decide, by decide, by decide⟩

/-- Leading whitespace and a printed value: the parser's whitespace skip
    stops exactly at the value's first character. -/
theorem skipJsonWs_printJV (ind : Nat) (v : JValue) (pre rest : List Char)
    (hpre : wsOnly pre = true) :
    skipJsonWs (pre ++ (printJV ind v ++ rest)) = printJV ind v ++ rest := by
  rw [skipJsonWs_ws_append pre _ hpre]
  obtain ⟨c, t, hct, hcw, _, _⟩ := printJV_head ind v
  rw [hct, List.cons_append, skipJsonWs_cons_neg c _ hcw]

/-- Dispatch into the non-empty-array loop: with `[` at the head and a
    non-`]` character after it, `parseJV` defers to `parseJArr`. -/
theorem parseJV_arr_step (f : Nat) (s inner : List Char)
    (hs : skipJsonWs s = '[' :: inner)
    (c2 : Char) (t2 : List Char)
    (hinner : skipJsonWs inner = c2 :: t2) (hc2 : c2 ≠ ']') :
    parseJV (f + 1) s = parseJArr f inner := by
  rw [parseJV, hs]
  show (match skipJsonWs inner with
    | [] => none
    | c2 :: r2 => if c2 = ']' then some (JValue.arr JArr.nil, r2) else parseJArr f inner) = parseJArr f inner
  rw [hinner]
  show (if c2 = ']' then some (JValue.arr JArr.nil, t2) else parseJArr f inner) = parseJArr f inner
  rw [if_neg hc2]

/-- Dispatch into the non-empty-object loop. -/
theorem parseJV_obj_step (f : Nat) (s inner : List Char)
    (hs : skipJsonWs s = '{' :: inner)
    (c2 : Char) (t2 : List Char)
    (hinner : skipJsonWs inner = c2 :: t2) (hc2 : c2 ≠ '}') :
    parseJV (f + 1) s = parseJObj f inner := by
  rw [parseJV, hs]
  show (match skipJsonWs inner with
    | [] => none
    | c2 :: r2 => if c2 = '}' then some (JValue.obj JObj.nil, r2) else parseJObj f inner) = parseJObj f inner
  rw [hinner]
  show (if c2 = '}' then some (JValue.obj JObj.nil, t2) else parseJObj f inner) = parseJObj f inner
  rw [if_neg hc2]

/-- Dispatch into the number fallthrough: a head character that starts no
    keyword, string, array, or object is handed to the integer token
    reader. -/
theorem parseJV_num_step (f : Nat) (s : List Char) (c : Char) (r : List Char)
    (hs : skipJsonWs s = c :: r)
    (h1 : c ≠ 'n') (h2 : c ≠ 't') (h3 : c ≠ 'f') (h4 : c ≠ '"') (h5 : c ≠ '[') (h6 : c ≠ '{') :
    parseJV (f + 1) s =
      match parseIntToken (c :: r) with
      | some (i, r2) => some (JValue.num i, r2)
      | none => none := by
  rw [parseJV, hs]
  clear hs
  show (if c = 'n' then
      match r with
      | 'u' :: 'l' :: 'l' :: r2 => some (JValue.null, r2)
      | _ => none
    else if c = 't' then
      match r with
      | 'r' :: 'u' :: 'e' :: r2 => some (JValue.bool true, r2)
      | _ => none
    else if c = 'f' then
      match r with
      | 'a' :: 'l' :: 's' :: 'e' :: r2 => some (JValue.bool false, r2)
      | _ => none
    else if c = '"' then
      match parseStringBody f r with
      | some (cs, r2) => some (JValue.str cs, r2)
      | none => none
    else if c = '[' then
      match skipJsonWs r with
      | [] => none
      | c2 :: r2 => if c2 = ']' then some (JValue.arr JArr.nil, r2) else parseJArr f r
    else if c = '{' then
      match skipJsonWs r with
      | [] => none
      | c2 :: r2 => if c2 = '}' then some (JValue.obj JObj.nil, r2) else parseJObj f r
    else
      match parseIntToken (c :: r) with
      | some (i, r2) => some (JValue.num i, r2)
      | none => none) =
    match parseIntToken (c :: r) with
    | some (i, r2) => some (JValue.num i, r2)
    | none => none
  rw [if_neg h1, if_neg h2, if_neg h3, if_neg h4, if_neg h5, if_neg h6]

/-! ### The printer/parser round trip -/

mutual
/-- Parsing a printed value (after any leading whitespace) returns exactly
    that value and the untouched remainder, whenever the remainder starts
    with a separator or closer and the fuel exceeds the printed length. -/
theorem rt_value : ∀ (v : JValue) (ind fuel : Nat) (pre rest : List Char),
    wsOnly pre = true → followOk rest → (printJV ind v).length < fuel →
    parseJV fuel (pre ++ (printJV ind v ++ rest)) = some (v, rest)
  | .null, ind, fuel, pre, rest, hpre, _, hf => by
    cases fuel with
    | zero => exact absurd hf (Nat.not_lt_zero _)
    | succ f =>
      rw [parseJV, skipJsonWs_printJV ind .null pre rest hpre]
      rfl
  | .bool b, ind, fuel, pre, rest, hpre, _, hf => by
    cases fuel with
    | zero => exact absurd hf (Nat.not_lt_zero _)
    | succ f =>
      rw [parseJV, skipJsonWs_printJV ind (.bool b) pre rest hpre]
      cases b <;> rfl
  | .num i, ind, fuel, pre, rest, hpre, hre, hf => by
    cases fuel with
    | zero => exact absurd hf (Nat.not_lt_zero _)
    | succ f =>
      obtain ⟨c, cs, hcons, hw, h1, h2, h3, h4, h5, h6, _, _⟩ := intToChars_head i
      have hs : skipJsonWs (pre ++ (printJV ind (.num i) ++ rest)) = c :: (cs ++ rest) := by
        rw [skipJsonWs_printJV ind (.num i) pre rest hpre]
        show intToChars i ++ rest = c :: (cs ++ rest)
        rw [hcons, List.cons_append]
      rw [parseJV_num_step f _ c (cs ++ rest) hs h1 h2 h3 h4 h5 h6]
      rw [show (c :: (cs ++ rest) : List Char) = intToChars i ++ rest from by
        rw [hcons, List.cons_append]]
      rw [parseIntToken_intToChars i rest (followOk_numBoundary rest hre)]
  | .str s, ind, fuel, pre, rest, hpre, _, hf => by
    cases fuel with
    | zero => exact absurd hf (Nat.not_lt_zero _)
    | succ f =>
      have hlen : s.length < f := by
        have h2 := escapeString_length s
        have h3 : (printJV ind (.str s)).length = (escapeString s).length + 2 := by
          show (quoteString s).length = _
          simp [quoteString]
        omega
      rw [parseJV, skipJsonWs_printJV ind (.str s) pre rest hpre]
      rw [show printJV ind (.str s) ++ rest = '"' :: (escapeString s ++ ('"' :: rest)) from by
        show quoteString s ++ rest = _
        simp [quoteString]]
      show (match parseStringBody f (escapeString s ++ ('"' :: rest)) with
        | some (cs, r2) => some (JValue.str cs, r2)
        | none => none) = some (.str s, rest)
      rw [parseStringBody_quote s f rest hlen]
  | .arr .nil, ind, fuel, pre, rest, hpre, _, hf => by
    cases fuel with
    | zero => exact absurd hf (Nat.not_lt_zero _)
    | succ f =>
      rw [parseJV, skipJsonWs_printJV ind (.arr .nil) pre rest hpre]
      rfl
  | .arr (.cons v vs), ind, fuel, pre, rest, hpre, hre, hf => by
    cases fuel with
    | zero => exact absurd hf (Nat.not_lt_zero _)
    | succ f =>
      obtain ⟨c2, t2, hct, hcw, hc2r, _⟩ := printJV_head (ind + 2) v
      have hL : (printJV ind (.arr (.cons v vs))).length =
          (printJV (ind + 2) v).length + (printArrTail (ind + 2) vs).length + ind + ind + 6 := by
        show ('[' :: '\n' :: (spaces (ind + 2) ++ printJV (ind + 2) v ++ printArrTail (ind + 2) vs ++
          '\n' :: (spaces ind ++ [']']))).length = _
        simp [List.length_append, spaces_length]
        omega
      have hs : skipJsonWs (pre ++ (printJV ind (.arr (.cons v vs)) ++ rest)) =
          '[' :: (('\n' :: spaces (ind + 2)) ++ (printJV (ind + 2) v ++ (printArrTail (ind + 2) vs ++
            ('\n' :: (spaces ind ++ (']' :: rest)))))) := by
        rw [skipJsonWs_printJV ind (.arr (.cons v vs)) pre rest hpre]
        show ('[' :: '\n' :: (spaces (ind + 2) ++ printJV (ind + 2) v ++ printArrTail (ind + 2) vs ++
          '\n' :: (spaces ind ++ [']']))) ++ rest = _
        simp [List.cons_append, List.append_assoc]
      have hinner : skipJsonWs (('\n' :: spaces (ind + 2)) ++ (printJV (ind + 2) v ++
          (printArrTail (ind + 2) vs ++ ('\n' :: (spaces ind ++ (']' :: rest)))))) =
          c2 :: (t2 ++ (printArrTail (ind + 2) vs ++ ('\n' :: (spaces ind ++ (']' :: rest))))) := by
        rw [skipJsonWs_ws_append _ _ (wsOnly_newline_spaces (ind + 2)), hct, List.cons_append,
          skipJsonWs_cons_neg c2 _ hcw]
      rw [parseJV_arr_step f _ _ hs c2 _ hinner hc2r]
      exact rt_arr v vs (ind + 2) ind f ('\n' :: spaces (ind + 2)) rest
        (wsOnly_newline_spaces (ind + 2)) hre (by omega)
  | .obj .nil, ind, fuel, pre, rest, hpre, _, hf => by
    cases fuel with
    | zero => exact absurd hf (Nat.not_lt_zero _)
    | succ f =>
      rw [parseJV, skipJsonWs_printJV ind (.obj .nil) pre rest hpre]
      rfl
  | .obj (.cons k v fs), ind, fuel, pre, rest, hpre, hre, hf => by
    cases fuel with
    | zero => exact absurd hf (Nat.not_lt_zero _)
    | succ f =>
      have hqk : (quoteString k).length = (escapeString k).length + 2 := by
        simp [quoteString]
      have hek := escapeString_length k
      have hL : (printJV ind (.obj (.cons k v fs))).length =
          (quoteString k).length + (printJV (ind + 2) v).length +
            (printObjTail (ind + 2) fs).length + ind + ind + 8 := by
        show ('{' :: '\n' :: (spaces (ind + 2) ++ (quoteString k ++ ':' :: ' ' :: printJV (ind + 2) v) ++
          printObjTail (ind + 2) fs ++ '\n' :: (spaces ind ++ ['}']))).length = _
        simp [List.length_append, spaces_length]
        omega
      have hs : skipJsonWs (pre ++ (printJV ind (.obj (.cons k v fs)) ++ rest)) =
          '{' :: (('\n' :: spaces (ind + 2)) ++ ('"' :: (escapeString k ++ ('"' :: (':' :: (' ' ::
            (printJV (ind + 2) v ++ (printObjTail (ind + 2) fs ++
              ('\n' :: (spaces ind ++ ('}' :: rest))))))))))) := by
        rw [skipJsonWs_printJV ind (.obj (.cons k v fs)) pre rest hpre]
        show ('{' :: '\n' :: (spaces (ind + 2) ++ (quoteString k ++ ':' :: ' ' :: printJV (ind + 2) v) ++
          printObjTail (ind + 2) fs ++ '\n' :: (spaces ind ++ ['}']))) ++ rest = _
        simp [quoteString, List.cons_append, List.append_assoc]
      have hinner : skipJsonWs (('\n' :: spaces (ind + 2)) ++ ('"' :: (escapeString k ++ ('"' :: (':' :: (' ' ::
          (printJV (ind + 2) v ++ (printObjTail (ind + 2) fs ++
            ('\n' :: (spaces ind ++ ('}' :: rest)))))))))))  =
          '"' :: (escapeString k ++ ('"' :: (':' :: (' ' ::
            (printJV (ind + 2) v ++ (printObjTail (ind + 2) fs ++
              ('\n' :: (spaces ind ++ ('}' :: rest))))))))) := by
        rw [skipJsonWs_ws_append _ _ (wsOnly_newline_spaces (ind + 2)),
          skipJsonWs_cons_neg _ _ (by decide)]
      rw [parseJV_obj_step f _ _ hs '"' _ hinner (by decide)]
      exact rt_obj k v fs (ind + 2) ind f ('\n' :: spaces (ind + 2)) rest
        (wsOnly_newline_spaces (ind + 2)) hre (by omega)
termination_by v ind fuel pre rest hpre hre hf => 3 * sizeOf v
/-- Parsing the printed elements of a non-empty array up to its closing
    bracket. -/
theorem rt_arr : ∀ (v : JValue) (vs : JArr) (ind j fuel : Nat) (pre rest : List Char),
    wsOnly pre = true → followOk rest →
    (printJV ind v).length + (printArrTail ind vs).length + 1 < fuel →
    parseJArr fuel (pre ++ (printJV ind v ++ (printArrTail ind vs ++
      ('\n' :: (spaces j ++ (']' :: rest)))))) = some (.arr (.cons v vs), rest)
  | v, vs, ind, j, fuel, pre, rest, hpre, hre, hf => by
    cases fuel with
    | zero => exact absurd hf (Nat.not_lt_zero _)
    | succ f =>
      have hfo : followOk (printArrTail ind vs ++ ('\n' :: (spaces j ++ (']' :: rest)))) := by
        cases vs with
        | nil => exact followOk_newline _
        | cons v2 vs2 => exact followOk_comma _
      have hv := rt_value v ind f pre (printArrTail ind vs ++ ('\n' :: (spaces j ++ (']' :: rest))))
        hpre hfo (by omega)
      rw [parseJArr, hv]
      cases vs with
      | nil =>
        have hsk : skipJsonWs (printArrTail ind JArr.nil ++ ('\n' :: (spaces j ++ (']' :: rest)))) =
            ']' :: rest := by
          show skipJsonWs ('\n' :: (spaces j ++ (']' :: rest))) = ']' :: rest
          rw [skipJsonWs_newline, skipJsonWs_ws_append _ _ (wsOnly_spaces j),
            skipJsonWs_cons_neg _ _ (by decide)]
        show (match skipJsonWs (printArrTail ind JArr.nil ++ ('\n' :: (spaces j ++ (']' :: rest)))) with
          | ',' :: r2 =>
            (match parseJArr f r2 with
             | some (JValue.arr vs2, r3) => some (JValue.arr (JArr.cons v vs2), r3)
             | _ => none)
          | ']' :: r2 => some (JValue.arr (JArr.cons v JArr.nil), r2)
          | _ => none) = some (JValue.arr (JArr.cons v JArr.nil), rest)
        rw [hsk]
        rfl
      | cons v2 vs2 =>
        have hL2 : (printArrTail ind (JArr.cons v2 vs2)).length =
            (printJV ind v2).length + (printArrTail ind vs2).length + ind + 2 := by
          show (',' :: '\n' :: (spaces ind ++ printJV ind v2 ++ printArrTail ind vs2)).length = _
          simp [List.length_append, spaces_length]
          omega
        have hsk : skipJsonWs (printArrTail ind (JArr.cons v2 vs2) ++
            ('\n' :: (spaces j ++ (']' :: rest)))) =
            ',' :: ('\n' :: ((spaces ind ++ printJV ind v2 ++ printArrTail ind vs2) ++
              ('\n' :: (spaces j ++ (']' :: rest))))) := by
          show skipJsonWs (',' :: ('\n' :: ((spaces ind ++ printJV ind v2 ++ printArrTail ind vs2) ++
            ('\n' :: (spaces j ++ (']' :: rest)))))) = _
          exact skipJsonWs_cons_neg _ _ (by decide)
        show (match skipJsonWs (printArrTail ind (JArr.cons v2 vs2) ++
            ('\n' :: (spaces j ++ (']' :: rest)))) with
          | ',' :: r2 =>
            (match parseJArr f r2 with
             | some (JValue.arr vs3, r3) => some (JValue.arr (JArr.cons v vs3), r3)
             | _ => none)
          | ']' :: r2 => some (JValue.arr (JArr.cons v JArr.nil), r2)
          | _ => none) = some (JValue.arr (JArr.cons v (JArr.cons v2 vs2)), rest)
        rw [hsk]
        show (match parseJArr f ('\n' :: ((spaces ind ++ printJV ind v2 ++ printArrTail ind vs2) ++
            ('\n' :: (spaces j ++ (']' :: rest))))) with
          | some (JValue.arr vs3, r3) => some (JValue.arr (JArr.cons v vs3), r3)
          | _ => none) = some (JValue.arr (JArr.cons v (JArr.cons v2 vs2)), rest)
        rw [show ('\n' :: ((spaces ind ++ printJV ind v2 ++ printArrTail ind vs2) ++
            ('\n' :: (spaces j ++ (']' :: rest)))) : List Char) =
          ('\n' :: spaces ind) ++ (printJV ind v2 ++ (printArrTail ind vs2 ++
            ('\n' :: (spaces j ++ (']' :: rest))))) from by
          simp [List.cons_append, List.append_assoc]]
        rw [rt_arr v2 vs2 ind j f ('\n' :: spaces ind) rest (wsOnly_newline_spaces ind) hre
          (by omega)]
termination_by v vs ind j fuel pre rest hpre hre hf => 3 * sizeOf v + 3 * sizeOf vs + 1
/-- Parsing the printed members of a non-empty object up to its closing
    brace. -/
theorem rt_obj : ∀ (k : List Char) (v : JValue) (fs : JObj) (ind j fuel : Nat) (pre rest : List Char),
    wsOnly pre = true → followOk rest →
    k.length + (printJV ind v).length + (printObjTail ind fs).length + 1 < fuel →
    parseJObj fuel (pre ++ ('"' :: (escapeString k ++ ('"' :: (':' :: (' ' ::
      (printJV ind v ++ (printObjTail ind fs ++ ('\n' :: (spaces j ++ ('}' :: rest))))))))))) =
      some (.obj (.cons k v fs), rest)
  | k, v, fs, ind, j, fuel, pre, rest, hpre, hre, hf => by
    cases fuel with
    | zero => exact absurd hf (Nat.not_lt_zero _)
    | succ f =>
      have hsk : skipJsonWs (pre ++ ('"' :: (escapeString k ++ ('"' :: (':' :: (' ' ::
          (printJV ind v ++ (printObjTail ind fs ++ ('\n' :: (spaces j ++ ('}' :: rest))))))))))) =
          '"' :: (escapeString k ++ ('"' :: (':' :: (' ' ::
            (printJV ind v ++ (printObjTail ind fs ++ ('\n' :: (spaces j ++ ('}' :: rest))))))))) := by
        rw [skipJsonWs_ws_append pre _ hpre, skipJsonWs_cons_neg _ _ (by decide)]
      rw [parseJObj, hsk]
      show (match parseStringBody f (escapeString k ++ ('"' :: (':' :: (' ' ::
          (printJV ind v ++ (printObjTail ind fs ++ ('\n' :: (spaces j ++ ('}' :: rest))))))))) with
        | some (k2, r2) =>
          (match skipJsonWs r2 with
           | ':' :: r3 =>
             (match parseJV f r3 with
              | some (v2, r4) =>
                (match skipJsonWs r4 with
                 | ',' :: r5 =>
                   (match parseJObj f r5 with
                    | some (JValue.obj fs2, r6) => some (JValue.obj (JObj.cons k2 v2 fs2), r6)
                    | _ => none)
                 | c5 :: r5 => if c5 = '}' then some (JValue.obj (JObj.cons k2 v2 JObj.nil), r5) else none
                 | _ => none)
              | none => none)
           | _ => none)
        | none => none) = some (JValue.obj (JObj.cons k v fs), rest)
      rw [parseStringBody_quote k f _ (by omega)]
      show (match skipJsonWs (':' :: (' ' ::
          (printJV ind v ++ (printObjTail ind fs ++ ('\n' :: (spaces j ++ ('}' :: rest))))))) with
        | ':' :: r3 =>
          (match parseJV f r3 with
           | some (v2, r4) =>
             (match skipJsonWs r4 with
              | ',' :: r5 =>
                (match parseJObj f r5 with
                 | some (JValue.obj fs2, r6) => some (JValue.obj (JObj.cons k v2 fs2), r6)
                 | _ => none)
              | c5 :: r5 => if c5 = '}' then some (JValue.obj (JObj.cons k v2 JObj.nil), r5) else none
              | _ => none)
           | none => none)
        | _ => none) = some (JValue.obj (JObj.cons k v fs), rest)
      rw [skipJsonWs_cons_neg ':' _ (by decide)]
      show (match parseJV f (' ' ::
          (printJV ind v ++ (printObjTail ind fs ++ ('\n' :: (spaces j ++ ('}' :: rest)))))) with
        | some (v2, r4) =>
          (match skipJsonWs r4 with
           | ',' :: r5 =>
             (match parseJObj f r5 with
              | some (JValue.obj fs2, r6) => some (JValue.obj (JObj.cons k v2 fs2), r6)
              | _ => none)
           | c5 :: r5 => if c5 = '}' then some (JValue.obj (JObj.cons k v2 JObj.nil), r5) else none
           | _ => none)
        | none => none) = some (JValue.obj (JObj.cons k v fs), rest)
      have hfo : followOk (printObjTail ind fs ++ ('\n' :: (spaces j ++ ('}' :: rest)))) := by
        cases fs with
        | nil => exact followOk_newline _
        | cons k2 v2 fs2 => exact followOk_comma _
      rw [show (' ' :: (printJV ind v ++ (printObjTail ind fs ++
          ('\n' :: (spaces j ++ ('}' :: rest))))) : List Char) =
        [' '] ++ (printJV ind v ++ (printObjTail ind fs ++ ('\n' :: (spaces j ++ ('}' :: rest)))))
        from rfl]
      rw [rt_value v ind f [' '] _ (by decide) hfo (by omega)]
      cases fs with
      | nil =>
        have hsk2 : skipJsonWs (printObjTail ind JObj.nil ++ ('\n' :: (spaces j ++ ('}' :: rest)))) =
            '}' :: rest := by
          show skipJsonWs ('\n' :: (spaces j ++ ('}' :: rest))) = '}' :: rest
          rw [skipJsonWs_newline, skipJsonWs_ws_append _ _ (wsOnly_spaces j),
            skipJsonWs_cons_neg _ _ (by decide)]
        show (match skipJsonWs (printObjTail ind JObj.nil ++ ('\n' :: (spaces j ++ ('}' :: rest)))) with
          | ',' :: r5 =>
            (match parseJObj f r5 with
             | some (JValue.obj fs2, r6) => some (JValue.obj (JObj.cons k v fs2), r6)
             | _ => none)
          | c5 :: r5 => if c5 = '}' then some (JValue.obj (JObj.cons k v JObj.nil), r5) else none
          | _ => none) = some (JValue.obj (JObj.cons k v JObj.nil), rest)
        rw [hsk2]
        rfl
      | cons k2 v2 fs2 =>
        have hqk2 : (quoteString k2).length = (escapeString k2).length + 2 := by
          simp [quoteString]
        have hek2 := escapeString_length k2
        have hL2 : (printObjTail ind (JObj.cons k2 v2 fs2)).length =
            (quoteString k2).length + (printJV ind v2).length +
              (printObjTail ind fs2).length + ind + 4 := by
          show (',' :: '\n' :: (spaces ind ++ (quoteString k2 ++ ':' :: ' ' :: printJV ind v2) ++
            printObjTail ind fs2)).length = _
          simp [List.length_append, spaces_length]
          omega
        have hsk2 : skipJsonWs (printObjTail ind (JObj.cons k2 v2 fs2) ++
            ('\n' :: (spaces j ++ ('}' :: rest)))) =
            ',' :: ('\n' :: ((spaces ind ++ (quoteString k2 ++ ':' :: ' ' :: printJV ind v2) ++
              printObjTail ind fs2) ++ ('\n' :: (spaces j ++ ('}' :: rest))))) := by
          show skipJsonWs (',' :: ('\n' :: ((spaces ind ++ (quoteString k2 ++ ':' :: ' ' ::
            printJV ind v2) ++ printObjTail ind fs2) ++ ('\n' :: (spaces j ++ ('}' :: rest)))))) = _
          exact skipJsonWs_cons_neg _ _ (by decide)
        show (match skipJsonWs (printObjTail ind (JObj.cons k2 v2 fs2) ++
            ('\n' :: (spaces j ++ ('}' :: rest)))) with
          | ',' :: r5 =>
            (match parseJObj f r5 with
             | some (JValue.obj fs3, r6) => some (JValue.obj (JObj.cons k v fs3), r6)
             | _ => none)
          | c5 :: r5 => if c5 = '}' then some (JValue.obj (JObj.cons k v JObj.nil), r5) else none
          | _ => none) = some (JValue.obj (JObj.cons k v (JObj.cons k2 v2 fs2)), rest)
        rw [hsk2]
        show (match parseJObj f ('\n' :: ((spaces ind ++ (quoteString k2 ++ ':' :: ' ' ::
            printJV ind v2) ++ printObjTail ind fs2) ++ ('\n' :: (spaces j ++ ('}' :: rest))))) with
          | some (JValue.obj fs3, r6) => some (JValue.obj (JObj.cons k v fs3), r6)
          | _ => none) = some (JValue.obj (JObj.cons k v (JObj.cons k2 v2 fs2)), rest)
        rw [show ('\n' :: ((spaces ind ++ (quoteString k2 ++ ':' :: ' ' :: printJV ind v2) ++
            printObjTail ind fs2) ++ ('\n' :: (spaces j ++ ('}' :: rest)))) : List Char) =
          ('\n' :: spaces ind) ++ ('"' :: (escapeString k2 ++ ('"' :: (':' :: (' ' ::
            (printJV ind v2 ++ (printObjTail ind fs2 ++ ('\n' :: (spaces j ++ ('}' :: rest))))))))))
          from by
          simp [quoteString, List.cons_append, List.append_assoc]]
        rw [rt_obj k2 v2 fs2 ind j f ('\n' :: spaces ind) rest (wsOnly_newline_spaces ind) hre
          (by omega)]
termination_by k v fs ind j fuel pre rest hpre hre hf => 3 * sizeOf v + 3 * sizeOf fs + 1
end

/-- `json.load` inverts `json.dump`: parsing a printed document gives back
    exactly the value that was written. -/
theorem json_loads_dumps (v : JValue) : json_loads (json_dumps v) = some v := by
  have h := rt_value v 0 ((printJV 0 v).length + 1) [] [] rfl trivial (Nat.lt_succ_self _)
  rw [List.nil_append, List.append_nil] at h
  rw [json_dumps, json_loads, h]
  rfl

/-- `load_history` on a file that `json.dump` just wrote returns the
    written value unchanged. -/
theorem load_history_dumps (v : JValue) : load_history (some (json_dumps v)) = v := by
  rw [load_history, json_loads_dumps]

/-- After `d[k] = v`, `d[k]` is `v`. -/
theorem lookup_setItem_self (k : List Char) (v : JValue) :
    ∀ fs, JObj.lookup k (JObj.setItem k v fs) = some v
  | .nil => by simp [JObj.setItem, JObj.lookup]
  | .cons k2 w fs => by
    by_cases h : k2 = k
    · subst h
      simp [JObj.setItem, JObj.lookup]
    · simp [JObj.setItem, JObj.lookup, h]
      exact lookup_setItem_self k v fs

/-- `d[k] = v` leaves every other key's value unchanged. -/
theorem lookup_setItem_other (k k2 : List Char) (hne : k2 ≠ k) (v : JValue) :
    ∀ fs, JObj.lookup k2 (JObj.setItem k v fs) = JObj.lookup k2 fs
  | .nil => by
    have h2 : ¬ k = k2 := fun h3 => hne h3.symm
    simp [JObj.setItem, JObj.lookup, h2]
  | .cons k3 w fs => by
    by_cases h : k3 = k
    · subst h
      have h2 : ¬ k3 = k2 := fun h3 => hne h3.symm
      simp [JObj.setItem, JObj.lookup, h2]
    · by_cases h3 : k3 = k2
      · subst h3
        simp [JObj.setItem, JObj.lookup, h]
      · simp [JObj.setItem, JObj.lookup, h, h3]
        exact lookup_setItem_other k k2 hne v fs

/-- `list.append` adds exactly one element at the end. -/
theorem JArr.toList_snoc : ∀ (xs : JArr) (e : JValue),
    (JArr.snoc xs e).toList = xs.toList ++ [e]
  | .nil, e => rfl
  | .cons w ws, e => by
    show w :: (JArr.snoc ws e).toList = w :: (JArr.toList ws ++ [e])
    rw [JArr.toList_snoc ws e]

/-- A successful `appendTopicEntry` appends exactly the entry to the
    "topics" sequence. -/
theorem topicsOf_appendTopicEntry : ∀ (entry h0 h2 : JValue),
    appendTopicEntry entry h0 = some h2 → topicsOf h2 = topicsOf h0 ++ [entry]
  | entry, .null, h2, h => by simp [appendTopicEntry] at h
  | entry, .bool b, h2, h => by simp [appendTopicEntry] at h
  | entry, .num i, h2, h => by simp [appendTopicEntry] at h
  | entry, .str s, h2, h => by simp [appendTopicEntry] at h
  | entry, .arr a, h2, h => by simp [appendTopicEntry] at h
  | entry, .obj fs, h2, h => by
    rw [appendTopicEntry] at h
    cases hl : JObj.lookup "topics".data fs with
    | none =>
      simp only [hl, lookup_setItem_self] at h
      injection h with h
      subst h
      simp [topicsOf, lookup_setItem_self, JArr.toList_snoc, JObj.lookup, hl,
        JArr.toList]
    | some w =>
      simp only [hl] at h
      cases w with
      | arr xs =>
        injection h with h
        subst h
        simp [topicsOf, lookup_setItem_self, JArr.toList_snoc, hl]
      | null => exact absurd h (by simp)
      | bool b => exact absurd h (by simp)
      | num i => exact absurd h (by simp)
      | str s => exact absurd h (by simp)
      | obj gs => exact absurd h (by simp)

/-- A successful `appendTopicEntry` touches no key other than "topics". -/
theorem objField_appendTopicEntry : ∀ (entry h0 h2 : JValue) (k : List Char),
    k ≠ "topics".data → appendTopicEntry entry h0 = some h2 →
    objField k h2 = objField k h0
  | entry, .null, h2, k, hk, h => by simp [appendTopicEntry] at h
  | entry, .bool b, h2, k, hk, h => by simp [appendTopicEntry] at h
  | entry, .num i, h2, k, hk, h => by simp [appendTopicEntry] at h
  | entry, .str s, h2, k, hk, h => by simp [appendTopicEntry] at h
  | entry, .arr a, h2, k, hk, h => by simp [appendTopicEntry] at h
  | entry, .obj fs, h2, k, hk, h => by
    rw [appendTopicEntry] at h
    cases hl : JObj.lookup "topics".data fs with
    | none =>
      simp only [hl, lookup_setItem_self] at h
      injection h with h
      subst h
      simp [objField, lookup_setItem_other _ _ hk]
    | some w =>
      simp only [hl] at h
      cases w with
      | arr xs =>
        injection h with h
        subst h
        simp [objField, lookup_setItem_other _ _ hk]
      | null => exact absurd h (by simp)
      | bool b => exact absurd h (by simp)
      | num i => exact absurd h (by simp)
      | str s => exact absurd h (by simp)
      | obj gs => exact absurd h (by simp)

/-- The last element of a list with one element appended. -/
theorem getLast_append_single : ∀ (l : List JValue) (a : JValue),
    (l ++ [a]).getLast? = some a
  | [], a => rfl
  | [x], a => rfl
  | x :: y :: xs, a => by
    rw [List.cons_append]
    rw [show ((x :: ((y :: xs) ++ [a])).getLast? : Option JValue) =
      ((y :: xs) ++ [a]).getLast? from rfl]
    exact getLast_append_single (y :: xs) a

/-- C3 counterexample: the source's `load_history` catches only
`FileNotFoundError` and `JSONDecodeError`, so file contents that parse as
valid JSON of the wrong shape — here the document "[]", which has no
top-level "topics" key and is not even an object — are returned as-is
instead of the documented empty container. -/
theorem load_history_wrong_shape_counterexample :
    load_history (some ['[', ']']) = JValue.arr JArr.nil ∧
      load_history (some ['[', ']']) ≠ emptyHistory := by
  decide

/-- C3 amended: `load_history` returns the documented empty container
`\x7b"topics": []\x7d` exactly when the backing file is absent
(`FileNotFoundError`) or its contents fail to parse as JSON
(`JSONDecodeError`); it never raises.  Successfully parsed JSON of the
wrong shape, however, is passed through unchanged. -/
theorem load_history_empty_on_missing_or_invalid (file : Option (List Char))
    (h : file = none ∨ ∃ text, file = some text ∧ json_loads text = none) :
    load_history file = emptyHistory := by
  rcases h with h | ⟨text, rfl, hp⟩
  · subst h
    rfl
  · rw [load_history, hp]

/-- Witness for C3's amended statement: an absent file and a non-JSON file
both load as the empty container. -/
theorem load_history_empty_on_missing_or_invalid_witness :
    load_history (some ['x']) = emptyHistory :=
  load_history_empty_on_missing_or_invalid (some ['x'])
    (Or.inr ⟨['x'], rfl, by decide⟩)

/-- Claim C4: a successful `save_to_history` returns exactly the entry it
built from the given prompt and plan together with the generated id and
timestamp it was handed, and `load_history` run on the file it wrote
returns a container whose "topics" sequence ends with that entry. -/
theorem save_then_load_appends (newId timestamp prompt learning_plan : List Char)
    (file file2 : Option (List Char)) (entry : JValue)
    (h : save_to_history newId timestamp prompt learning_plan file = (file2, some entry)) :
    entry = mkHistoryEntry newId prompt learning_plan timestamp ∧
    objField "id".data entry = some (.str newId) ∧
    objField "prompt".data entry = some (.str prompt) ∧
    objField "learning_plan".data entry = some (.str learning_plan) ∧
    objField "timestamp".data entry = some (.str timestamp) ∧
    (topicsOf (load_history file2)).getLast? = some entry := by
  rw [save_to_history] at h
  cases happ : appendTopicEntry (mkHistoryEntry newId prompt learning_plan timestamp)
      (load_history file) with
  | none =>
    simp only [happ] at h
    injection h with h1 h2
    exact absurd h2 (by simp)
  | some hist2 =>
    simp only [happ] at h
    injection h with h1 h2
    injection h2 with h2
    subst h2
    subst h1
    refine ⟨rfl, rfl, rfl, rfl, rfl, ?_⟩
    rw [load_history_dumps, topicsOf_appendTopicEntry _ _ _ happ]
    exact getLast_append_single _ _

/-- Witness for C4: saving into an absent history file. -/
theorem save_then_load_appends_witness :
    mkHistoryEntry ['a'] ['p'] ['l'] ['t'] = mkHistoryEntry ['a'] ['p'] ['l'] ['t'] ∧
    objField "id".data (mkHistoryEntry ['a'] ['p'] ['l'] ['t']) = some (.str ['a']) ∧
    objField "prompt".data (mkHistoryEntry ['a'] ['p'] ['l'] ['t']) = some (.str ['p']) ∧
    objField "learning_plan".data (mkHistoryEntry ['a'] ['p'] ['l'] ['t']) =
      some (.str ['l']) ∧
    objField "timestamp".data (mkHistoryEntry ['a'] ['p'] ['l'] ['t']) = some (.str ['t']) ∧
    (topicsOf (load_history (some (json_dumps (JValue.obj (JObj.cons "topics".data
        (JValue.arr (JArr.cons (mkHistoryEntry ['a'] ['p'] ['l'] ['t']) JArr.nil))
        JObj.nil)))))).getLast? = some (mkHistoryEntry ['a'] ['p'] ['l'] ['t']) :=
  save_then_load_appends ['a'] ['t'] ['p'] ['l'] none
    (some (json_dumps (JValue.obj (JObj.cons "topics".data
      (JValue.arr (JArr.cons (mkHistoryEntry ['a'] ['p'] ['l'] ['t']) JArr.nil))
      JObj.nil))))
    (mkHistoryEntry ['a'] ['p'] ['l'] ['t'])
    (by decide)

/-- Claim C7: round-trip — serializing any history container with the
store's writer (`json.dump`) and running `load_history` on the written text
reproduces the container, and in particular the same sequence of entries. -/
theorem serialize_then_load_roundtrip (v : JValue) :
    load_history (some (json_dumps v)) = v ∧
    topicsOf (load_history (some (json_dumps v))) = topicsOf v :=
  ⟨load_history_dumps v, by rw [load_history_dumps]⟩

/-- Claim C8: frame property of a successful `save_to_history` — the
"topics" sequence of the stored container afterwards is exactly the old
sequence with the one new entry appended at the end (previous entries
unchanged, in order, nothing deleted), and every top-level field other than
"topics" is unchanged. -/
theorem save_frame_property (newId timestamp prompt learning_plan : List Char)
    (file file2 : Option (List Char)) (entry : JValue)
    (h : save_to_history newId timestamp prompt learning_plan file = (file2, some entry)) :
    topicsOf (load_history file2) = topicsOf (load_history file) ++ [entry] ∧
    ∀ k, k ≠ "topics".data →
      objField k (load_history file2) = objField k (load_history file) := by
  rw [save_to_history] at h
  cases happ : appendTopicEntry (mkHistoryEntry newId prompt learning_plan timestamp)
      (load_history file) with
  | none =>
    simp only [happ] at h
    injection h with h1 h2
    exact absurd h2 (by simp)
  | some hist2 =>
    simp only [happ] at h
    injection h with h1 h2
    injection h2 with h2
    subst h2
    subst h1
    constructor
    · rw [load_history_dumps]
      exact topicsOf_appendTopicEntry _ _ _ happ
    · intro k hk
      rw [load_history_dumps]
      exact objField_appendTopicEntry _ _ _ k hk happ

/-- Witness for C8: saving into an absent history file appends to the empty
"topics" sequence. -/
theorem save_frame_property_witness :
    topicsOf (load_history (some (json_dumps (JValue.obj (JObj.cons "topics".data
        (JValue.arr (JArr.cons (mkHistoryEntry ['a'] ['p'] ['l'] ['t']) JArr.nil))
        JObj.nil))))) =
      topicsOf (load_history none) ++ [mkHistoryEntry ['a'] ['p'] ['l'] ['t']] :=
  (save_frame_property ['a'] ['t'] ['p'] ['l'] none
    (some (json_dumps (JValue.obj (JObj.cons "topics".data
      (JValue.arr (JArr.cons (mkHistoryEntry ['a'] ['p'] ['l'] ['t']) JArr.nil))
      JObj.nil))))
    (mkHistoryEntry ['a'] ['p'] ['l'] ['t'])
    (by decide)).1
